import Mathlib

/-!
Verification development for the leaflet-quadcluster repository.

The embedding models the QuadTreeNode / QuadTree / QuadTreeFactory code of
src/src/tree/tree.js (the QuadTreeNode-based implementation that the dist
bundle ships), the TreeAggregate fold descriptor of the aggregate module,
and the two historical cut filters (the area-based one of the d3 variant
and the longitude-width-based one of the QuadTreeNode variant).

Numbers are modelled as rationals; JavaScript float arithmetic is replaced
by exact rational arithmetic.  Points are an arbitrary type with two
coordinate accessor functions, exactly as latAcc / lngAcc in the source.
Mutation is modelled by state passing; the mutually recursive insertion
functions (add / addToChild / convertToInternal), which can diverge in the
source for points outside the node bounds, are modelled with explicit fuel.
Every recursive function over the tree comes with a companion on an
optional child (prefixed with an o) so that the equation lemmas rewrite
without looping.
-/

namespace QuadCluster

/-- Model of L.LatLng: a latitude / longitude pair. -/
structure LatLng where
  lat : ℚ
  lng : ℚ
deriving DecidableEq, Repr

/-- Model of L.LatLngBounds with its four edge accessors. -/
structure Bounds where
  south : ℚ
  west : ℚ
  north : ℚ
  east : ℚ
deriving DecidableEq, Repr

namespace Bounds

/-- Midpoint latitude, `(getSouth() + getNorth()) * 0.5` in addToChild. -/
def midLat (b : Bounds) : ℚ := (b.south + b.north) / 2

/-- Midpoint longitude, `(getWest() + getEast()) * 0.5` in addToChild. -/
def midLng (b : Bounds) : ℚ := (b.west + b.east) / 2

/-- Leaflet LatLngBounds.intersects: inclusive overlap on both axes. -/
def intersectsB (a b : Bounds) : Bool :=
  decide (b.north ≥ a.south ∧ b.south ≤ a.north ∧ b.east ≥ a.west ∧ b.west ≤ a.east)

/-- Leaflet LatLngBounds.contains for a LatLng: inclusive on both axes. -/
def containsP (b : Bounds) (p : LatLng) : Bool :=
  decide (b.south ≤ p.lat ∧ p.lat ≤ b.north ∧ b.west ≤ p.lng ∧ p.lng ≤ b.east)

/-- Whether a coordinate pair lies inside the bounds (inclusive). -/
def inB (b : Bounds) (lat lng : ℚ) : Bool :=
  decide (b.south ≤ lat ∧ lat ≤ b.north ∧ b.west ≤ lng ∧ lng ≤ b.east)

/-- squarifyBounds of QuadTreeFactory: extend the shorter dimension from its
minimum corner so that both extents are equal. -/
def squarify (b : Bounds) : Bounds :=
  let dlat := b.north - b.south
  let dlng := b.east - b.west
  if dlng > dlat then
    ⟨b.south, b.west, b.south + dlng, b.east⟩
  else
    ⟨b.south, b.west, b.north, b.west + dlat⟩

/-- Width of a node in longitude, `Math.abs(getEast() - getWest())`. -/
def widthLng (b : Bounds) : ℚ := |b.east - b.west|

/-- Height of a node in latitude. -/
def heightLat (b : Bounds) : ℚ := |b.north - b.south|

/-- nodeArea of the d3 tree variant: width times height. -/
def area (b : Bounds) : ℚ := widthLng b * heightLat b

/-- The larger of the two per-axis extents of a box, the measure that halves
with every quadrant step of addToChild. -/
def maxExtent (b : Bounds) : ℚ := max (b.north - b.south) (b.east - b.west)

end Bounds

/-- Child slot index chosen by QuadTreeNode.addToChild: latitude strictly
above the midpoint adds 2 (top half), longitude strictly right of the
midpoint adds 1 (right half). Slots: 0 bottom-left, 1 bottom-right,
2 top-left, 3 top-right. -/
def routeIndex (b : Bounds) (lat lng : ℚ) : ℕ :=
  (if lat > b.midLat then 2 else 0) + (if lng > b.midLng then 1 else 0)

/-- The child bounding box computed by QuadTreeNode.addToChild from the same
comparisons (sLat / eLat / sLng / eLng in the source). -/
def routeBounds (b : Bounds) (lat lng : ℚ) : Bounds :=
  let sLat := if lat > b.midLat then b.midLat else b.south
  let eLat := if lat > b.midLat then b.north else b.midLat
  let sLng := if lng > b.midLng then b.midLng else b.west
  let eLng := if lng > b.midLng then b.east else b.midLng
  ⟨sLat, sLng, eLat, eLng⟩

/-- Modelled from the spec: the four quadrants of a bounds rectangle in the
fixed slot order 0 bottom-left, 1 bottom-right, 2 top-left, 3 top-right,
split at the midpoint.  Used as the specification-side description that the
bounds computed by addToChild are compared against. -/
def quadBounds (b : Bounds) (i : ℕ) : Bounds :=
  match i with
  | 0 => ⟨b.south, b.west, b.midLat, b.midLng⟩
  | 1 => ⟨b.south, b.midLng, b.midLat, b.east⟩
  | 2 => ⟨b.midLat, b.west, b.north, b.midLng⟩
  | _ => ⟨b.midLat, b.midLng, b.north, b.east⟩

/-- The scalar per-node fields of a QuadTreeNode (everything except the four
child slots): bounds, the leaf flag, the point cluster and its post-filter
subset, the reference coordinates of the first inserted point (this.lat /
this.lng, null when absent), the gravity center, the mass and the active
flag. -/
structure NodeData (α : Type) where
  bounds : Bounds
  leaf : Bool
  points : List α
  activePoints : List α
  refLat : Option ℚ
  refLng : Option ℚ
  center : LatLng
  mass : ℕ
  active : Bool
deriving DecidableEq, Repr

/-- A QuadTreeNode: scalar data plus the sparse child array
[bottom-left, bottom-right, top-left, top-right]. -/
inductive QNode (α : Type) : Type where
  | mk (data : NodeData α) (c0 c1 c2 c3 : Option (QNode α)) : QNode α

namespace QNode

def data : QNode α → NodeData α
  | .mk d _ _ _ _ => d

def child : QNode α → ℕ → Option (QNode α)
  | .mk _ c _ _ _, 0 => c
  | .mk _ _ c _ _, 1 => c
  | .mk _ _ _ c _, 2 => c
  | .mk _ _ _ _ c, 3 => c
  | _, _ => none

def setData : QNode α → NodeData α → QNode α
  | .mk _ c0 c1 c2 c3, d => .mk d c0 c1 c2 c3

def setChild : QNode α → ℕ → Option (QNode α) → QNode α
  | .mk d _ c1 c2 c3, 0, c => .mk d c c1 c2 c3
  | .mk d c0 _ c2 c3, 1, c => .mk d c0 c c2 c3
  | .mk d c0 c1 _ c3, 2, c => .mk d c0 c1 c c3
  | .mk d c0 c1 c2 _, 3, c => .mk d c0 c1 c2 c
  | n, _, _ => n

def bounds (n : QNode α) : Bounds := n.data.bounds
def leafF (n : QNode α) : Bool := n.data.leaf
def points (n : QNode α) : List α := n.data.points
def activePoints (n : QNode α) : List α := n.data.activePoints
def center (n : QNode α) : LatLng := n.data.center
def mass (n : QNode α) : ℕ := n.data.mass
def active (n : QNode α) : Bool := n.data.active
def refLatD (n : QNode α) : ℚ := n.data.refLat.getD 0
def refLngD (n : QNode α) : ℚ := n.data.refLng.getD 0

/-- The present children in slot order, as iterated by the source loops. -/
def presentChildren : QNode α → List (QNode α)
  | .mk _ c0 c1 c2 c3 => [c0, c1, c2, c3].filterMap id

mutual

/-- Number of nodes in the subtree. -/
def size : QNode α → ℕ
  | .mk _ c0 c1 c2 c3 => 1 + osize c0 + osize c1 + osize c2 + osize c3

/-- Subtree size below an optional child. -/
def osize : Option (QNode α) → ℕ
  | none => 0
  | some c => size c

end

end QNode

section Ops

variable {α : Type} (la lo : α → ℚ)

/-- One step of the moving average loop in computeGravityCenter for an
internal node: fold in a child with center (clat, clng) and mass m.
The accumulator carries (cLat, cLng, tPoints). -/
def mvAvg (acc : ℚ × ℚ × ℕ) (clat clng : ℚ) (m : ℕ) : ℚ × ℚ × ℕ :=
  let t : ℕ := acc.2.2
  let cWgt : ℚ := (t : ℚ) / ((t : ℚ) + (m : ℚ))
  let nWgt : ℚ := (m : ℚ) / ((t : ℚ) + (m : ℚ))
  (acc.1 * cWgt + clat * nWgt, acc.2.1 * cWgt + clng * nWgt, t + m)

/-- The child loop of computeGravityCenter on an internal node: iterate the
present children in slot order, skipping inactive ones. -/
def foldKids (cs : List (QNode α)) : ℚ × ℚ × ℕ :=
  cs.foldl (fun acc c =>
    if c.active = true then mvAvg acc c.center.lat c.center.lng c.mass else acc)
    (0, 0, 0)

/-- QuadTreeNode.computeGravityCenter with computeChild = false: recompute
center, mass and active of this node from its own activePoints (leaf) or
from the current children fields (internal). -/
def computeShallow (n : QNode α) : QNode α :=
  if n.leafF then
    let t : ℕ := n.activePoints.length
    let sLat : ℚ := (n.activePoints.map la).sum
    let sLng : ℚ := (n.activePoints.map lo).sum
    let cLat : ℚ := if 0 < t then sLat / (t : ℚ) else 0
    let cLng : ℚ := if 0 < t then sLng / (t : ℚ) else 0
    n.setData { n.data with center := ⟨cLat, cLng⟩, mass := t, active := decide (0 < t) }
  else
    let r := foldKids n.presentChildren
    n.setData { n.data with center := ⟨r.1, r.2.1⟩, mass := r.2.2, active := decide (0 < r.2.2) }

mutual

/-- QuadTreeNode.computeGravityCenter with computeChild = true: children are
recomputed first, then the node itself. -/
def recompute : QNode α → QNode α
  | .mk d c0 c1 c2 c3 =>
      computeShallow la lo
        (.mk d (orecompute c0) (orecompute c1) (orecompute c2) (orecompute c3))

/-- recompute lifted to an optional child. -/
def orecompute : Option (QNode α) → Option (QNode α)
  | none => none
  | some c => some (recompute c)

end

mutual

/-- QuadTreeNode.filter: depth first; a leaf refilters its activePoints, an
internal node filters every present child; each node then recomputes its
gravity center shallowly. -/
def filterNode (pred : α → Bool) : QNode α → QNode α
  | .mk d c0 c1 c2 c3 =>
      if d.leaf then
        computeShallow la lo
          (.mk { d with activePoints := d.points.filter pred } c0 c1 c2 c3)
      else
        computeShallow la lo
          (.mk d (ofilterNode pred c0) (ofilterNode pred c1)
            (ofilterNode pred c2) (ofilterNode pred c3))

/-- filterNode lifted to an optional child. -/
def ofilterNode (pred : α → Bool) : Option (QNode α) → Option (QNode α)
  | none => none
  | some c => some (filterNode pred c)

end

/-- The QuadTreeNode constructor applied with a point: a fresh leaf holding
one point, with its gravity center computed (the constructor calls
computeGravityCenter). -/
def newLeaf (b : Bounds) (pt : α) : QNode α :=
  computeShallow la lo
    (.mk ⟨b, true, [pt], [pt], some (la pt), some (lo pt), ⟨0, 0⟩, 0, true⟩
      none none none none)

/-- The QuadTreeNode constructor applied without a point: the fresh root
created by the QuadTree constructor. -/
def emptyRoot (b : Bounds) : QNode α :=
  computeShallow la lo
    (.mk ⟨b, true, [], [], none, none, ⟨0, 0⟩, 0, true⟩ none none none none)

mutual

/-- All points of the subtree that are currently in an activePoints list
(the flat collection that the gravity center is checked against; internal
nodes own no points). -/
def allActive : QNode α → List α
  | .mk d c0 c1 c2 c3 =>
      if d.leaf then d.activePoints
      else oallActive c0 ++ oallActive c1 ++ oallActive c2 ++ oallActive c3

/-- allActive lifted to an optional child. -/
def oallActive : Option (QNode α) → List α
  | none => []
  | some c => allActive c

end

/-- The node reached by following a list of child slot indices. -/
def nodeAt : QNode α → List ℕ → Option (QNode α)
  | n, [] => some n
  | n, i :: p =>
      match n.child i with
      | none => none
      | some c => nodeAt c p

mutual

/-- Structural well-formedness that every tree reachable through the public
API enjoys: a leaf has no materialized child slot (the source only fills
child slots on internal nodes). -/
def tidy : QNode α → Bool
  | .mk d c0 c1 c2 c3 =>
      (if d.leaf then c0.isNone && c1.isNone && c2.isNone && c3.isNone else true)
      && otidy c0 && otidy c1 && otidy c2 && otidy c3

/-- tidy lifted to an optional child. -/
def otidy : Option (QNode α) → Bool
  | none => true
  | some c => tidy c

end

mutual

/-- Well-formedness of the trees reachable through the public API, used by
the termination development: a leaf has no children, and when it is
non-empty its reference coordinates are those of its first point, the
reference lies inside the node bounds, and every clustered point is within
epsilon of the reference on both axes; every present child of an internal
node covers exactly its quadrant of the parent bounds and is well formed. -/
def wfN (eps : ℚ) : QNode α → Bool
  | .mk d c0 c1 c2 c3 =>
      (if d.leaf then
        c0.isNone && c1.isNone && c2.isNone && c3.isNone &&
        (match d.points with
         | [] => true
         | p :: _ =>
             decide (d.refLat = some (la p)) && decide (d.refLng = some (lo p)) &&
             d.bounds.inB (la p) (lo p) &&
             d.points.all (fun q =>
               decide (|la q - la p| < eps) && decide (|lo q - lo p| < eps)))
       else true)
      && owfN eps d.bounds 0 c0 && owfN eps d.bounds 1 c1
      && owfN eps d.bounds 2 c2 && owfN eps d.bounds 3 c3
  termination_by structural n => n

/-- Well-formedness of an optional child in slot i of a node with the given
bounds: if present it covers exactly its quadrant and is well formed. -/
def owfN (eps : ℚ) (b : Bounds) (i : ℕ) : Option (QNode α) → Bool
  | none => true
  | some c => decide (c.bounds = quadBounds b i) && wfN eps c
  termination_by structural oc => oc

end

/-- QuadTreeNode.add, with explicit fuel bounding the recursion depth of the
mutual recursion add / addToChild / convertToInternal (the source recursion
is not structurally bounded: it can diverge for points outside the node
bounds).  The addToChild logic is the local addTo; convertToInternal is the
foldlM over the stored points followed by clearing them.  The defensive
throws of convertToInternal are unreachable at its only call site (the
branch conditions guarantee a non-empty leaf) and are not modelled. -/
def addFuel (eps : ℚ) : ℕ → QNode α → α → Option (QNode α)
  | 0, _, _ => none
  | Nat.succ f, n, pt =>
    let lat := la pt
    let lng := lo pt
    let addTo : QNode α → α → ℚ → ℚ → Option (QNode α) := fun m q qlat qlng =>
      let i := routeIndex m.bounds qlat qlng
      match m.child i with
      | none => some (m.setChild i (some (newLeaf la lo (routeBounds m.bounds qlat qlng) q)))
      | some c => (addFuel eps f c q).map (fun r => m.setChild i (some r))
    if n.leafF = false then
      addTo n pt lat lng
    else if n.points.isEmpty then
      some (n.setData { n.data with
        points := [pt], activePoints := [pt], refLat := some lat, refLng := some lng })
    else if |n.refLatD - lat| < eps ∧ |n.refLngD - lng| < eps then
      some (n.setData { n.data with
        points := n.points ++ [pt], activePoints := n.activePoints ++ [pt] })
    else
      ((n.points.foldlM (fun m q => addTo m q n.refLatD n.refLngD)
          (n.setData { n.data with leaf := false })).map
        (fun m => m.setData { m.data with
          points := [], activePoints := [], refLat := none, refLng := none })).bind
        (fun m => addTo m pt lat lng)

/-- QuadTreeNode.addToChild as a standalone function at a given recursion
fuel: route the point to its quadrant slot, creating the child leaf if the
slot is empty, otherwise recursing into the existing child. -/
def addToChildF (eps : ℚ) (f : ℕ) (m : QNode α) (q : α) (qlat qlng : ℚ) :
    Option (QNode α) :=
  let i := routeIndex m.bounds qlat qlng
  match m.child i with
  | none => some (m.setChild i (some (newLeaf la lo (routeBounds m.bounds qlat qlng) q)))
  | some c => (addFuel la lo eps f c q).map (fun r => m.setChild i (some r))

/-- The leaf-to-internal conversion of QuadTreeNode.convertToInternal: mark
the node internal, re-insert the stored points (routed by the reference
coordinates this.lat / this.lng), then clear the point lists and the
reference coordinates. -/
def convertF (eps : ℚ) (f : ℕ) (n : QNode α) : Option (QNode α) :=
  (n.points.foldlM (fun m q => addToChildF la lo eps f m q n.refLatD n.refLngD)
      (n.setData { n.data with leaf := false })).map
    (fun m => m.setData { m.data with
      points := [], activePoints := [], refLat := none, refLng := none })

/-- QuadTree construction state after inserting the given points in order
into a fresh root (the loop in the QuadTree constructor). -/
def buildFuel (eps : ℚ) (b : Bounds) (f : ℕ) (pts : List α) : Option (QNode α) :=
  pts.foldlM (fun n p => addFuel la lo eps f n p) (emptyRoot la lo b)

/-- QuadTreeFactory.calculateBounds: the min / max envelope of the points;
the source throws when the point list is empty, modelled as none.  For a
non-empty list the fold from plus and minus infinity in the source equals
the fold from the first point over the rest. -/
def calculateBoundsE (pts : List α) : Option Bounds :=
  match pts with
  | [] => none
  | p :: ps =>
      some (ps.foldl (fun b q =>
        ⟨min (la q) b.south, min (lo q) b.west, max (la q) b.north, max (lo q) b.east⟩)
        ⟨la p, lo p, la p, lo p⟩)

/-- The factory function QuadTreeFactory._gen composed with the QuadTree
constructor: compute the bounds if not configured (error on an empty point
list), squarify them, insert all points and recompute the gravity centers.
The error value models the synchronous throw of calculateBounds; the inner
Option is the insertion fuel running out. -/
def genTree (eps : ℚ) (boundsOpt : Option Bounds) (f : ℕ) (pts : List α) :
    Except Unit (Option (QNode α)) :=
  match boundsOpt with
  | some b => .ok ((buildFuel la lo eps b.squarify f pts).map (recompute la lo))
  | none =>
      match calculateBoundsE la lo pts with
      | none => .error ()
      | some b => .ok ((buildFuel la lo eps b.squarify f pts).map (recompute la lo))

end Ops

section Agg

/-- The TreeAggregate descriptor of the aggregate module: the five stages of
a fold over the tree (the initState field models the initialize stage). -/
structure TreeAggregate (σ : Type) (α : Type) where
  initState : σ
  filter : QNode α → Bool
  accumulate : σ → QNode α → σ
  merge : σ → σ → ℕ → σ
  finalize : σ → QNode α → σ

mutual

/-- QuadTreeNode.aggregate: if the node is filtered the result is null and
the subtree is not traversed; otherwise initialize, accumulate this node,
merge every present child state that is not null in slot order 0, 1, 2, 3
passing the slot index, then finalize. -/
def aggregateNode {σ α : Type} (agg : TreeAggregate σ α) : QNode α → Option σ
  | n@(.mk _ c0 c1 c2 c3) =>
    if agg.filter n then none
    else
      some (agg.finalize
        (aggKid agg (aggKid agg (aggKid agg (aggKid agg
          (agg.accumulate agg.initState n) c0 0) c1 1) c2 2) c3 3) n)

/-- One child step of QuadTreeNode.aggregate: recurse into a present child
and merge its state when it is not null. -/
def aggKid {σ α : Type} (agg : TreeAggregate σ α) (s : σ) :
    Option (QNode α) → ℕ → σ
  | none, _ => s
  | some c, i =>
      match aggregateNode agg c with
      | none => s
      | some cs => agg.merge s cs i

end

/-- QuadTree.aggregate: the root fold, falling back to the initial state
when the whole tree was filtered out. -/
def aggRun {σ α : Type} (agg : TreeAggregate σ α) (n : QNode α) : σ :=
  (aggregateNode agg n).getD agg.initState

end Agg

section Cut

variable {α : Type}

/-- The filter stage of the cut aggregate of the QuadTreeNode variant
(QuadTree.prototype.cut): skip inactive nodes, skip nodes whose bounds do
not intersect the viewport, always visit the root, and skip a non-root node
whose longitude width is strictly below half of maxLng. -/
def cutFilterLng (vp : Bounds) (maxLng : ℚ) (hasParent : Bool) (n : QNode α) : Bool :=
  if n.active = false then true
  else if vp.intersectsB n.bounds = false then true
  else if hasParent = false then false
  else if n.bounds.widthLng < maxLng / 2 then true
  else false

/-- The filter stage of the cut aggregate of the d3 tree variant
(_tree.cut): same shape, but a non-root node is skipped when its area
footprint is at most a quarter of the area threshold. -/
def cutFilterArea (vp : Bounds) (a : ℚ) (hasParent : Bool) (n : QNode α) : Bool :=
  if n.active = false then true
  else if vp.intersectsB n.bounds = false then true
  else if hasParent = false then false
  else if n.bounds.area ≤ a / 4 then true
  else false

mutual

/-- The cut aggregate of QuadTree.prototype.cut run over the tree, with
node identity made explicit: the result collects the child-slot paths of
the emitted nodes.  The stages are those of the source: init returns the
empty list, accumulate is the default identity, merge concatenates child
results in slot order, and finalize emits the node itself when no
descendant was emitted and its gravity center lies inside the viewport. -/
def cutNode (vp : Bounds) (maxLng : ℚ) (hp : Bool) (pa : List ℕ) :
    QNode α → Option (List (List ℕ))
  | n@(.mk _ c0 c1 c2 c3) =>
    if cutFilterLng vp maxLng hp n then none
    else
      let s4 := cutKid vp maxLng pa
        (cutKid vp maxLng pa
          (cutKid vp maxLng pa
            (cutKid vp maxLng pa [] c0 0) c1 1) c2 2) c3 3
      some (if s4.isEmpty then (if vp.containsP n.center then [pa] else []) else s4)
  termination_by structural n => n

/-- One child step of the cut fold: recurse into a present child with the
extended path and concatenate its result when it is not null. -/
def cutKid (vp : Bounds) (maxLng : ℚ) (pa : List ℕ) (s : List (List ℕ)) :
    Option (QNode α) → ℕ → List (List ℕ)
  | none, _ => s
  | some c, i =>
      match cutNode vp maxLng true (pa ++ [i]) c with
      | none => s
      | some cs => s ++ cs
  termination_by structural oc => oc

end

/-- QuadTree.prototype.cut at the root: the fold result, or the empty list
when the root itself was filtered (QuadTree.aggregate falls back to init). -/
def cutRoot (vp : Bounds) (maxLng : ℚ) (n : QNode α) : List (List ℕ) :=
  (cutNode vp maxLng false [] n).getD []

end Cut

section Trace

/-- Events recording which aggregation stage ran, used to state the call
protocol of the fold engine. -/
inductive AggEvent (α : Type) : Type where
  | initE : AggEvent α
  | accE (n : QNode α) : AggEvent α
  | mergeE (i : ℕ) : AggEvent α
  | finE (n : QNode α) : AggEvent α

/-- Instrument an aggregate so that every stage call appends an event to an
event log carried beside the state; the underlying stage results are
unchanged. -/
def instrument {σ α : Type} (agg : TreeAggregate σ α) :
    TreeAggregate (σ × List (AggEvent α)) α where
  initState := (agg.initState, [AggEvent.initE])
  filter := agg.filter
  accumulate := fun s n => (agg.accumulate s.1 n, s.2 ++ [AggEvent.accE n])
  merge := fun s cs i => (agg.merge s.1 cs.1 i, s.2 ++ cs.2 ++ [AggEvent.mergeE i])
  finalize := fun s n => (agg.finalize s.1 n, s.2 ++ [AggEvent.finE n])

mutual

/-- Modelled from the spec (4.3): the canonical call trace of the fold on a
node: nothing when the node is filtered; otherwise init, then accumulate on
the node, then for every present non-filtered child in slot order its own
recursive trace followed by its merge carrying the quadrant index, then
finalize on the node. -/
def expectedTrace {α : Type} (filt : QNode α → Bool) : QNode α → List (AggEvent α)
  | n@(.mk _ c0 c1 c2 c3) =>
    if filt n then []
    else
      [AggEvent.initE, AggEvent.accE n]
      ++ kidTrace filt c0 0 ++ kidTrace filt c1 1
      ++ kidTrace filt c2 2 ++ kidTrace filt c3 3
      ++ [AggEvent.finE n]

/-- The canonical trace contributed by one optional child: nothing when
absent or filtered, else its own trace followed by its merge event. -/
def kidTrace {α : Type} (filt : QNode α → Bool) :
    Option (QNode α) → ℕ → List (AggEvent α)
  | none, _ => []
  | some c, i =>
      if filt c then [] else expectedTrace filt c ++ [AggEvent.mergeE i]

end

end Trace

section Invariants

variable {α : Type} (la lo : α → ℚ)

/-- The mass summed over the present active children, the quantity that the
mass of an internal node must equal. -/
def massOfActiveKids (n : QNode α) : ℕ :=
  n.presentChildren.foldl (fun t c => if c.active then t + c.mass else t) 0

mutual

/-- The mass / active consistency invariant at every node of the subtree:
a leaf carries the count of its activePoints, an internal node the sum of
the masses of its present active children, and the active flag holds
exactly when the mass is positive. -/
def invAll : QNode α → Bool
  | n@(.mk d c0 c1 c2 c3) =>
    (if d.leaf then decide (d.mass = d.activePoints.length)
     else decide (d.mass = massOfActiveKids n))
    && (d.active == decide (0 < d.mass))
    && oinvAll c0 && oinvAll c1 && oinvAll c2 && oinvAll c3

/-- invAll lifted to an optional child. -/
def oinvAll : Option (QNode α) → Bool
  | none => true
  | some c => invAll c

end

/-- The flat latitude average over all active points below the node. -/
def flatLat (n : QNode α) : ℚ :=
  ((allActive n).map la).sum / ((allActive n).length : ℚ)

/-- The flat longitude average over all active points below the node. -/
def flatLng (n : QNode α) : ℚ :=
  ((allActive n).map lo).sum / ((allActive n).length : ℚ)

mutual

/-- The centroid exactness invariant at every node of the subtree: an
active node carries as mass the count of the active points below it and as
gravity center their flat arithmetic mean. -/
def centroidOkAll : QNode α → Bool
  | n@(.mk d c0 c1 c2 c3) =>
    (if d.active then
      decide (d.mass = (allActive n).length) &&
      decide (d.center.lat = flatLat la n) && decide (d.center.lng = flatLng lo n)
     else true)
    && ocentroidOkAll c0 && ocentroidOkAll c1 && ocentroidOkAll c2 && ocentroidOkAll c3
  termination_by structural n => n

/-- centroidOkAll lifted to an optional child. -/
def ocentroidOkAll : Option (QNode α) → Bool
  | none => true
  | some c => centroidOkAll c
  termination_by structural oc => oc

end

/-- The tree states reachable through the public API: a constructed tree
(points inserted into a fresh root, then a recursive gravity recompute as
in the QuadTree constructor), a public add (insert then recursive
recompute), and a public filter. -/
inductive Reach (eps : ℚ) : QNode α → Prop where
  | construct (b : Bounds) (f : ℕ) (pts : List α) (t : QNode α) :
      buildFuel la lo eps b f pts = some t → Reach eps (recompute la lo t)
  | addStep (s s2 : QNode α) (f : ℕ) (pt : α) :
      Reach eps s → addFuel la lo eps f s pt = some s2 →
      Reach eps (recompute la lo s2)
  | filterStep (s : QNode α) (pred : α → Bool) :
      Reach eps s → Reach eps (filterNode la lo pred s)

end Invariants

section PathProps

variable {α : Type}

/-- One slot path extends another (the second names a node in the subtree
of the first, themselves included); an ancestor of a node is a strict
extension source. -/
def pathExtends (p q : List ℕ) : Prop := ∃ r, q = p ++ r

/-- What the cut fold guarantees for the result list of a visited node:
every emitted path names a node below this one whose gravity center lies
inside the viewport, no emitted path extends another distinct emitted path,
and the node emits itself only alone and only when its own center is
inside the viewport. -/
def goodCut (vp : Bounds) (n : QNode α) (pa : List ℕ) (l : List (List ℕ)) : Prop :=
  (∀ p ∈ l, ∃ r m2, p = pa ++ r ∧ nodeAt n r = some m2 ∧ vp.containsP m2.center = true)
  ∧ (∀ p q, p ∈ l → q ∈ l → pathExtends p q → p = q)
  ∧ (pa ∈ l → l = [pa] ∧ vp.containsP n.center = true)

/-- The invariant of the accumulated state after the cut fold has handled
the child slots below i: every element came from some earlier present child
slot, pointing at a node whose center is inside the viewport, and the
elements form an antichain for path extension. -/
def accCut (vp : Bounds) (n : QNode α) (pa : List ℕ) (i : ℕ) (s : List (List ℕ)) : Prop :=
  (∀ p ∈ s, ∃ j r c m2, j < i ∧ p = pa ++ j :: r ∧ n.child j = some c ∧
      nodeAt c r = some m2 ∧ vp.containsP m2.center = true)
  ∧ (∀ p q, p ∈ s → q ∈ s → pathExtends p q → p = q)

end PathProps

section WitnessInputs

/-- A concrete active unit-payload node used to instantiate theorems. -/
def wNodeU : QNode Unit :=
  .mk ⟨⟨0, 0, 1, 1⟩, true, [], [], none, none, ⟨0, 0⟩, 1, true⟩ none none none none

/-- A concrete leaf in the bottom-left quadrant of wTree. -/
def wLeafA : QNode Unit :=
  .mk ⟨⟨0, 0, 2, 2⟩, true, [()], [()], some 1, some 1, ⟨1, 1⟩, 1, true⟩
    none none none none

/-- A concrete leaf in the top-right quadrant of wTree. -/
def wLeafB : QNode Unit :=
  .mk ⟨⟨2, 2, 4, 4⟩, true, [()], [()], some 3, some 3, ⟨3, 3⟩, 1, true⟩
    none none none none

/-- A concrete two-leaf tree used to instantiate the cut theorems. -/
def wTree : QNode Unit :=
  .mk ⟨⟨0, 0, 4, 4⟩, false, [], [], none, none, ⟨2, 2⟩, 2, true⟩
    (some wLeafA) none none (some wLeafB)

/-- Latitude accessor for concrete LatLng points (the factory default). -/
def wLat : LatLng → ℚ := LatLng.lat

/-- Longitude accessor for concrete LatLng points (the factory default). -/
def wLng : LatLng → ℚ := LatLng.lng

/-- Two concrete in-bounds points. -/
def wPts : List LatLng := [⟨1, 1⟩, ⟨3, 3⟩]

/-- Concrete square bounds. -/
def wBounds : Bounds := ⟨0, 0, 4, 4⟩

/-- The concrete tree built by inserting wPts into a fresh root. -/
def wBuildT : QNode LatLng :=
  (buildFuel wLat wLng (1/10) wBounds 5 wPts).getD (emptyRoot wLat wLng wBounds)

/-- A concrete well-formed one-point LatLng leaf used to instantiate the
leaf-add theorem. -/
def wLeafP : QNode LatLng :=
  .mk ⟨⟨0, 0, 2, 2⟩, true, [⟨1, 1⟩], [⟨1, 1⟩], some 1, some 1, ⟨1, 1⟩, 1, true⟩
    none none none none

/-- The shape of the single co-located cluster leaf that convertToInternal
builds out of the stored points of a converted leaf: all points land in one
child because every one of them is routed by the same reference
coordinates. -/
def clusterLeaf {α : Type} (la lo : α → ℚ) (b : Bounds) (p0 : α) (ps : List α) : QNode α :=
  .mk ⟨b, true, ps, ps, some (la p0), some (lo p0), ⟨la p0, lo p0⟩, 1, true⟩
    none none none none

/-- Corner constraints preserved by the diverging insertion scenario: the
node box stays inside the unit square. -/
def unitishB (b : Bounds) : Prop :=
  0 ≤ b.south ∧ b.south ≤ b.north ∧ b.north ≤ 1 ∧
  0 ≤ b.west ∧ b.west ≤ b.east ∧ b.east ≤ 1

end WitnessInputs

/-! ## Theorems -/

namespace QNode

@[simp] theorem data_mk (d : NodeData α) (c0 c1 c2 c3 : Option (QNode α)) :
    (QNode.mk d c0 c1 c2 c3).data = d := rfl

@[simp] theorem child_mk_zero (d : NodeData α) (c0 c1 c2 c3 : Option (QNode α)) :
    (QNode.mk d c0 c1 c2 c3).child 0 = c0 := rfl
@[simp] theorem child_mk_one (d : NodeData α) (c0 c1 c2 c3 : Option (QNode α)) :
    (QNode.mk d c0 c1 c2 c3).child 1 = c1 := rfl
@[simp] theorem child_mk_two (d : NodeData α) (c0 c1 c2 c3 : Option (QNode α)) :
    (QNode.mk d c0 c1 c2 c3).child 2 = c2 := rfl
@[simp] theorem child_mk_three (d : NodeData α) (c0 c1 c2 c3 : Option (QNode α)) :
    (QNode.mk d c0 c1 c2 c3).child 3 = c3 := rfl

@[simp] theorem setData_mk (d e : NodeData α) (c0 c1 c2 c3 : Option (QNode α)) :
    (QNode.mk d c0 c1 c2 c3).setData e = QNode.mk e c0 c1 c2 c3 := rfl

@[simp] theorem setChild_mk_zero (d : NodeData α) (c0 c1 c2 c3 c : Option (QNode α)) :
    (QNode.mk d c0 c1 c2 c3).setChild 0 c = QNode.mk d c c1 c2 c3 := rfl
@[simp] theorem setChild_mk_one (d : NodeData α) (c0 c1 c2 c3 c : Option (QNode α)) :
    (QNode.mk d c0 c1 c2 c3).setChild 1 c = QNode.mk d c0 c c2 c3 := rfl
@[simp] theorem setChild_mk_two (d : NodeData α) (c0 c1 c2 c3 c : Option (QNode α)) :
    (QNode.mk d c0 c1 c2 c3).setChild 2 c = QNode.mk d c0 c1 c c3 := rfl
@[simp] theorem setChild_mk_three (d : NodeData α) (c0 c1 c2 c3 c : Option (QNode α)) :
    (QNode.mk d c0 c1 c2 c3).setChild 3 c = QNode.mk d c0 c1 c2 c := rfl

@[simp] theorem bounds_mk (d : NodeData α) (c0 c1 c2 c3 : Option (QNode α)) :
    (QNode.mk d c0 c1 c2 c3).bounds = d.bounds := rfl
@[simp] theorem leafF_mk (d : NodeData α) (c0 c1 c2 c3 : Option (QNode α)) :
    (QNode.mk d c0 c1 c2 c3).leafF = d.leaf := rfl
@[simp] theorem points_mk (d : NodeData α) (c0 c1 c2 c3 : Option (QNode α)) :
    (QNode.mk d c0 c1 c2 c3).points = d.points := rfl
@[simp] theorem activePoints_mk (d : NodeData α) (c0 c1 c2 c3 : Option (QNode α)) :
    (QNode.mk d c0 c1 c2 c3).activePoints = d.activePoints := rfl
@[simp] theorem center_mk (d : NodeData α) (c0 c1 c2 c3 : Option (QNode α)) :
    (QNode.mk d c0 c1 c2 c3).center = d.center := rfl
@[simp] theorem mass_mk (d : NodeData α) (c0 c1 c2 c3 : Option (QNode α)) :
    (QNode.mk d c0 c1 c2 c3).mass = d.mass := rfl
@[simp] theorem active_mk (d : NodeData α) (c0 c1 c2 c3 : Option (QNode α)) :
    (QNode.mk d c0 c1 c2 c3).active = d.active := rfl
@[simp] theorem refLatD_mk (d : NodeData α) (c0 c1 c2 c3 : Option (QNode α)) :
    (QNode.mk d c0 c1 c2 c3).refLatD = d.refLat.getD 0 := rfl
@[simp] theorem refLngD_mk (d : NodeData α) (c0 c1 c2 c3 : Option (QNode α)) :
    (QNode.mk d c0 c1 c2 c3).refLngD = d.refLng.getD 0 := rfl
@[simp] theorem presentChildren_mk (d : NodeData α) (c0 c1 c2 c3 : Option (QNode α)) :
    (QNode.mk d c0 c1 c2 c3).presentChildren = [c0, c1, c2, c3].filterMap id := rfl

theorem size_pos (n : QNode α) : 0 < n.size := by
  cases n
  simp only [QNode.size]
  omega

theorem size_child_lt {n c : QNode α} {i : ℕ}
    (h : n.child i = some c) : c.size < n.size := by
  cases n with
  | mk d c0 c1 c2 c3 =>
    match i, h with
    | 0, h =>
        simp only [child_mk_zero] at h; subst h
        simp only [QNode.size, QNode.osize]; omega
    | 1, h =>
        simp only [child_mk_one] at h; subst h
        simp only [QNode.size, QNode.osize]; omega
    | 2, h =>
        simp only [child_mk_two] at h; subst h
        simp only [QNode.size, QNode.osize]; omega
    | 3, h =>
        simp only [child_mk_three] at h; subst h
        simp only [QNode.size, QNode.osize]; omega

/-- Strong induction on subtree size, the induction principle used for
recursive facts about nodes. -/
theorem strongInduction {α : Type} {motive : QNode α → Prop}
    (h : ∀ n : QNode α, (∀ m : QNode α, m.size < n.size → motive m) → motive n) :
    ∀ n, motive n := by
  intro n
  have main : ∀ k (m : QNode α), m.size ≤ k → motive m := by
    intro k
    induction k with
    | zero =>
        intro m hm
        have := m.size_pos
        omega
    | succ k ih =>
        intro m hm
        exact h m (fun m2 h2 => ih m2 (by omega))
  exact main n.size n le_rfl

end QNode

section OpsThms

variable {α : Type} (la lo : α → ℚ)

/-- Unfolding of addFuel at positive fuel in terms of the standalone
addToChildF and convertF. -/
theorem addFuel_succ (eps : ℚ) (f : ℕ) (n : QNode α) (pt : α) :
    addFuel la lo eps (f + 1) n pt =
      (if n.leafF = false then
        addToChildF la lo eps f n pt (la pt) (lo pt)
      else if n.points.isEmpty then
        some (n.setData { n.data with
          points := [pt], activePoints := [pt],
          refLat := some (la pt), refLng := some (lo pt) })
      else if |n.refLatD - la pt| < eps ∧ |n.refLngD - lo pt| < eps then
        some (n.setData { n.data with
          points := n.points ++ [pt], activePoints := n.activePoints ++ [pt] })
      else
        (convertF la lo eps f n).bind
          (fun m => addToChildF la lo eps f m pt (la pt) (lo pt))) := by
  rfl

end OpsThms

section FilterRoute

/-- A node for which the filter stage answers true contributes no state:
the fold returns null immediately, never touching the children. -/
theorem aggregateNode_filtered {σ α : Type} (agg : TreeAggregate σ α) (n : QNode α)
    (h : agg.filter n = true) : aggregateNode agg n = none := by
  cases n with
  | mk d c0 c1 c2 c3 => simp [aggregateNode, h]

/-- C3: during a cut, an active node whose bounds intersect the viewport is
skipped by the filter stage iff it is not the root and its area footprint
is at most a quarter of the size threshold (the area-based variant of
_tree.cut, whose rule the specification states); the root, when active and
intersecting, is never skipped, in the area-based variant as well as in the
width-based variant, and a skipped node contributes nothing: the fold
returns null for it without traversing its subtree. -/
theorem cut_skip_iff_quarter_footprint {α : Type} (vp : Bounds) (a m : ℚ) (hp : Bool)
    (n : QNode α) (hact : n.active = true) (hint : vp.intersectsB n.bounds = true) :
    (cutFilterArea vp a hp n = true ↔ hp = true ∧ n.bounds.area ≤ a / 4)
    ∧ cutFilterArea vp a false n = false
    ∧ cutFilterLng vp m false n = false
    ∧ (∀ (σ : Type) (agg : TreeAggregate σ α) (n2 : QNode α),
        agg.filter n2 = true → aggregateNode agg n2 = none) := by
  refine ⟨?_, ?_, ?_, fun σ agg n2 h => aggregateNode_filtered agg n2 h⟩
  · cases hp with
    | false => simp [cutFilterArea, hact, hint]
    | true =>
        by_cases harea : n.bounds.area ≤ a / 4 <;>
          simp [cutFilterArea, hact, hint, harea]
  · simp [cutFilterArea, hact, hint]
  · simp [cutFilterLng, hact, hint]

/-- C3 witness: a unit-point node with active flag and intersecting bounds. -/
theorem cut_skip_iff_quarter_footprint_witness :
    (wNodeU.active = true) ∧ ((⟨0, 0, 4, 4⟩ : Bounds).intersectsB wNodeU.bounds = true)
    ∧ ((cutFilterArea ⟨0, 0, 4, 4⟩ 4 true wNodeU = true ↔
          (true : Bool) = true ∧ wNodeU.bounds.area ≤ 4 / 4)
       ∧ cutFilterArea ⟨0, 0, 4, 4⟩ 4 false wNodeU = false
       ∧ cutFilterLng ⟨0, 0, 4, 4⟩ 7 false wNodeU = false
       ∧ (∀ (σ : Type) (agg : TreeAggregate σ Unit) (n2 : QNode Unit),
            agg.filter n2 = true → aggregateNode agg n2 = none)) :=
  ⟨by decide, by decide,
    cut_skip_iff_quarter_footprint ⟨0, 0, 4, 4⟩ 4 7 true wNodeU (by decide) (by decide)⟩

/-- C7: quadrant routing.  The slot index selects the top half exactly when
the latitude is strictly above the midpoint and the right half exactly when
the longitude is strictly above the midpoint, composing to the slot order
0 bottom-left, 1 bottom-right, 2 top-left, 3 top-right; the bounds computed
for a created child are exactly that quadrant of the parent bounds, and
creating an absent child stores the new leaf under exactly that quadrant. -/
theorem addToChild_routing (b : Bounds) (lat lng : ℚ) :
    (2 ≤ routeIndex b lat lng ↔ lat > b.midLat)
    ∧ (routeIndex b lat lng % 2 = 1 ↔ lng > b.midLng)
    ∧ routeIndex b lat lng < 4
    ∧ routeBounds b lat lng = quadBounds b (routeIndex b lat lng)
    ∧ (∀ (β : Type) (la lo : β → ℚ) (eps : ℚ) (f : ℕ) (m : QNode β) (q : β),
        m.child (routeIndex m.bounds (la q) (lo q)) = none →
        addToChildF la lo eps f m q (la q) (lo q) =
          some (m.setChild (routeIndex m.bounds (la q) (lo q))
            (some (newLeaf la lo (quadBounds m.bounds (routeIndex m.bounds (la q) (lo q))) q)))) := by
  have hq : ∀ (b2 : Bounds) (t g : ℚ), routeBounds b2 t g = quadBounds b2 (routeIndex b2 t g) := by
    intro b2 t g
    by_cases h1 : t > b2.midLat <;> by_cases h2 : g > b2.midLng <;>
      simp [routeIndex, routeBounds, quadBounds, h1, h2]
  refine ⟨?_, ?_, ?_, hq b lat lng, ?_⟩
  · by_cases h1 : lat > b.midLat <;> by_cases h2 : lng > b.midLng <;>
      simp [routeIndex, h1, h2]
  · by_cases h1 : lat > b.midLat <;> by_cases h2 : lng > b.midLng <;>
      simp [routeIndex, h1, h2]
  · by_cases h1 : lat > b.midLat <;> by_cases h2 : lng > b.midLng <;>
      simp [routeIndex, h1, h2]
  · intro β la lo eps f m q hnone
    rw [addToChildF, hnone, ← hq]

/-- C7 witness: route a concrete point into a concrete empty node. -/
theorem addToChild_routing_witness :
    ((2 ≤ routeIndex ⟨0, 0, 4, 4⟩ 3 1 ↔ (3 : ℚ) > (Bounds.mk 0 0 4 4).midLat)
    ∧ (routeIndex ⟨0, 0, 4, 4⟩ 3 1 % 2 = 1 ↔ (1 : ℚ) > (Bounds.mk 0 0 4 4).midLng)
    ∧ routeIndex ⟨0, 0, 4, 4⟩ 3 1 < 4
    ∧ routeBounds ⟨0, 0, 4, 4⟩ 3 1 = quadBounds ⟨0, 0, 4, 4⟩ (routeIndex ⟨0, 0, 4, 4⟩ 3 1)
    ∧ (∀ (β : Type) (la lo : β → ℚ) (eps : ℚ) (f : ℕ) (m : QNode β) (q : β),
        m.child (routeIndex m.bounds (la q) (lo q)) = none →
        addToChildF la lo eps f m q (la q) (lo q) =
          some (m.setChild (routeIndex m.bounds (la q) (lo q))
            (some (newLeaf la lo (quadBounds m.bounds (routeIndex m.bounds (la q) (lo q))) q))))) :=
  addToChild_routing ⟨0, 0, 4, 4⟩ 3 1

end FilterRoute

section CutThms

variable {α : Type}

theorem append_cons_eq (pa : List ℕ) (i : ℕ) (r : List ℕ) :
    (pa ++ [i]) ++ r = pa ++ i :: r := by
  simp

theorem pathExtends_cross {pa : List ℕ} {j i : ℕ} {r r2 : List ℕ} (hne : j ≠ i) :
    ¬ pathExtends (pa ++ j :: r) (pa ++ i :: r2) := by
  rintro ⟨u, hu⟩
  rw [List.append_assoc] at hu
  have h3 := List.append_cancel_left hu
  simp only [List.cons_append, List.cons.injEq] at h3
  exact hne h3.1.symm

/-- One child step of the cut fold preserves the accumulator invariant. -/
theorem cutKid_acc (vp : Bounds) (t : ℚ) (n : QNode α) (pa : List ℕ) (i : ℕ)
    (s : List (List ℕ)) (oc : Option (QNode α)) (hoc : n.child i = oc)
    (hs : accCut vp n pa i s)
    (IH : ∀ c, oc = some c → ∀ l, cutNode vp t true (pa ++ [i]) c = some l →
        goodCut vp c (pa ++ [i]) l) :
    accCut vp n pa (i + 1) (cutKid vp t pa s oc i) := by
  obtain ⟨hsA, hsB⟩ := hs
  have hmono : ∀ p ∈ s, ∃ j r c m2, j < i + 1 ∧ p = pa ++ j :: r ∧ n.child j = some c ∧
      nodeAt c r = some m2 ∧ vp.containsP m2.center = true := by
    intro p hp
    obtain ⟨j, r, c, m2, hj, hpe, hc, hn, hcts⟩ := hsA p hp
    exact ⟨j, r, c, m2, by omega, hpe, hc, hn, hcts⟩
  cases oc with
  | none => exact ⟨hmono, hsB⟩
  | some c =>
      cases hcut : cutNode vp t true (pa ++ [i]) c with
      | none => simpa only [cutKid, hcut] using ⟨hmono, hsB⟩
      | some cs =>
          obtain ⟨gA, gB, gC⟩ := IH c rfl cs hcut
          simp only [cutKid, hcut]
          constructor
          · intro p hp
            rcases List.mem_append.mp hp with hps | hpcs
            · exact hmono p hps
            · obtain ⟨r, m2, hpe, hn, hcts⟩ := gA p hpcs
              refine ⟨i, r, c, m2, by omega, ?_, hoc, hn, hcts⟩
              rw [hpe, append_cons_eq]
          · intro p q hp hq hpq
            rcases List.mem_append.mp hp with hps | hpcs <;>
              rcases List.mem_append.mp hq with hqs | hqcs
            · exact hsB p q hps hqs hpq
            · obtain ⟨j, r, c2, m2, hj, hpe, _, _, _⟩ := hsA p hps
              obtain ⟨r2, m3, hqe, _, _⟩ := gA q hqcs
              rw [append_cons_eq] at hqe
              exact absurd (hpe ▸ hqe ▸ hpq) (pathExtends_cross (by omega))
            · obtain ⟨r2, m3, hpe, _, _⟩ := gA p hpcs
              obtain ⟨j, r, c2, m2, hj, hqe, _, _, _⟩ := hsA q hqs
              rw [append_cons_eq] at hpe
              exact absurd (hpe ▸ hqe ▸ hpq) (pathExtends_cross (by omega))
            · exact gB p q hpcs hqcs hpq

/-- The cut fold result of every visited node satisfies goodCut: emitted
paths point below the node at centers inside the viewport, they form an
antichain, and self-emission happens only alone and only with the center
inside the viewport. -/
theorem cutNode_good (vp : Bounds) (t : ℚ) :
    ∀ (n : QNode α) (hp : Bool) (pa : List ℕ) (l : List (List ℕ)),
      cutNode vp t hp pa n = some l → goodCut vp n pa l := by
  intro n
  induction n using QNode.strongInduction with
  | _ n ih =>
    intro hp pa l hl
    cases n with
    | mk d c0 c1 c2 c3 =>
      rw [cutNode] at hl
      by_cases hf : cutFilterLng vp t hp (QNode.mk d c0 c1 c2 c3) = true
      · rw [if_pos hf] at hl; exact absurd hl (by simp)
      · rw [if_neg hf] at hl
        have step : ∀ (i : ℕ) (oc : Option (QNode α)) (s : List (List ℕ)),
            (QNode.mk d c0 c1 c2 c3).child i = oc →
            accCut vp (QNode.mk d c0 c1 c2 c3) pa i s →
            accCut vp (QNode.mk d c0 c1 c2 c3) pa (i + 1) (cutKid vp t pa s oc i) := by
          intro i oc s hoc hacc
          refine cutKid_acc vp t _ pa i s oc hoc hacc ?_
          intro c hc l2 hl2
          exact ih c (QNode.size_child_lt (hoc.trans hc)) true (pa ++ [i]) l2 hl2
        have acc0 : accCut vp (QNode.mk d c0 c1 c2 c3) pa 0 [] := by
          constructor
          · intro p hp; exact absurd hp (by simp)
          · intro p q hp _ _; exact absurd hp (by simp)
        have a4 := step 3 c3 _ rfl (step 2 c2 _ rfl (step 1 c1 _ rfl (step 0 c0 _ rfl acc0)))
        rw [Option.some.injEq] at hl
        obtain ⟨a4A, a4B⟩ := a4
        by_cases hS : (cutKid vp t pa
            (cutKid vp t pa (cutKid vp t pa (cutKid vp t pa [] c0 0) c1 1) c2 2)
            c3 3).isEmpty = true
        · rw [if_pos hS] at hl
          by_cases hct : vp.containsP (QNode.mk d c0 c1 c2 c3).center = true
          · rw [if_pos hct] at hl
            subst hl
            refine ⟨?_, ?_, ?_⟩
            · intro p hp
              have hppa : p = pa := by simpa using hp
              exact ⟨[], QNode.mk d c0 c1 c2 c3, by simp [hppa], by simp [nodeAt], hct⟩
            · intro p q hp hq _
              have hppa : p = pa := by simpa using hp
              have hqpa : q = pa := by simpa using hq
              rw [hppa, hqpa]
            · intro _; exact ⟨rfl, hct⟩
          · rw [if_neg hct] at hl
            subst hl
            refine ⟨?_, ?_, ?_⟩
            · intro p hp; exact absurd hp (by simp)
            · intro p q hp _ _; exact absurd hp (by simp)
            · intro hp; exact absurd hp (by simp)
        · rw [if_neg hS] at hl
          subst hl
          refine ⟨?_, a4B, ?_⟩
          · intro p hp
            obtain ⟨j, r, c, m2, _, hpe, hc, hn, hcts⟩ := a4A p hp
            refine ⟨j :: r, m2, hpe, ?_, hcts⟩
            rw [nodeAt, hc]
            exact hn
          · intro hp
            obtain ⟨j, r, c, m2, _, hpe, _, _, _⟩ := a4A pa hp
            exact absurd hpe (by simp)

/-- C4: for every tree state, viewport and size threshold, the list
returned by cut never contains two nodes where one is an ancestor of the
other: whenever one returned path extends another, they are the same
path. -/
theorem cut_ancestor_disjoint (vp : Bounds) (t : ℚ) (n : QNode α)
    (p q : List ℕ) (hp : p ∈ cutRoot vp t n) (hq : q ∈ cutRoot vp t n)
    (hpq : pathExtends p q) : p = q := by
  unfold cutRoot at hp hq
  cases h : cutNode vp t false [] n with
  | none => rw [h] at hp; exact absurd hp (by simp)
  | some l =>
      rw [h] at hp hq
      simp only [Option.getD_some] at hp hq
      exact (cutNode_good vp t n false [] l h).2.1 p q hp hq hpq

/-- C4 witness: on a concrete two-leaf tree the cut emits both leaves; the
antichain property instantiated at the first element. -/
theorem cut_ancestor_disjoint_witness :
    ([0] ∈ cutRoot ⟨0, 0, 4, 4⟩ 0 wTree) ∧ pathExtends [0] [0]
    ∧ ([0] : List ℕ) = [0] :=
  ⟨by with_unfolding_all exact List.Mem.head _, ⟨[], rfl⟩,
    cut_ancestor_disjoint ⟨0, 0, 4, 4⟩ 0 wTree [0] [0]
      (by with_unfolding_all exact List.Mem.head _)
      (by with_unfolding_all exact List.Mem.head _) ⟨[], rfl⟩⟩

/-- C5: every node in the cut result has its gravity center inside the
viewport, and a visited node whose center lies outside the viewport never
emits itself (it is silently omitted; the fold is total, no error). -/
theorem cut_centroid_in_viewport (vp : Bounds) (t : ℚ) (n : QNode α) :
    (∀ p ∈ cutRoot vp t n, ∃ m, nodeAt n p = some m ∧ vp.containsP m.center = true)
    ∧ (∀ (hpb : Bool) (pa : List ℕ) (l : List (List ℕ)),
        cutNode vp t hpb pa n = some l → vp.containsP n.center = false → pa ∉ l) := by
  constructor
  · intro p hp2
    unfold cutRoot at hp2
    cases h : cutNode vp t false [] n with
    | none => rw [h] at hp2; exact absurd hp2 (by simp)
    | some l =>
        rw [h] at hp2
        simp only [Option.getD_some] at hp2
        obtain ⟨r, m2, hpe, hn, hcts⟩ := (cutNode_good vp t n false [] l h).1 p hp2
        simp only [List.nil_append] at hpe
        exact ⟨m2, hpe ▸ hn, hcts⟩
  · intro hpb pa l hl hct hmem
    obtain ⟨_, hcts⟩ := (cutNode_good vp t n hpb pa l hl).2.2 hmem
    rw [hct] at hcts
    exact absurd hcts (by simp)

/-- C5 witness: the emitted leaf of the concrete tree has its center inside
the viewport. -/
theorem cut_centroid_in_viewport_witness :
    ([0] ∈ cutRoot ⟨0, 0, 4, 4⟩ 0 wTree)
    ∧ (∃ m, nodeAt wTree [0] = some m
        ∧ (⟨0, 0, 4, 4⟩ : Bounds).containsP m.center = true) :=
  ⟨by with_unfolding_all exact List.Mem.head _,
    (cut_centroid_in_viewport ⟨0, 0, 4, 4⟩ 0 wTree).1 [0]
      (by with_unfolding_all exact List.Mem.head _)⟩

end CutThms

section AggThms

/-- The fold returns null exactly for filtered nodes. -/
theorem aggregateNode_none_iff {σ α : Type} (agg : TreeAggregate σ α) (n : QNode α) :
    aggregateNode agg n = none ↔ agg.filter n = true := by
  cases n with
  | mk d c0 c1 c2 c3 =>
      by_cases hf : agg.filter (QNode.mk d c0 c1 c2 c3) = true <;>
        simp [aggregateNode, hf]

/-- One instrumented child step produces the plain child step beside the
canonical child trace. -/
theorem aggKid_instrument {σ α : Type} (agg : TreeAggregate σ α) (s : σ)
    (es : List (AggEvent α)) (oc : Option (QNode α)) (i : ℕ)
    (IH : ∀ c, oc = some c →
        aggregateNode (instrument agg) c =
          (aggregateNode agg c).map (fun x => (x, expectedTrace agg.filter c))) :
    aggKid (instrument agg) (s, es) oc i =
      (aggKid agg s oc i, es ++ kidTrace agg.filter oc i) := by
  cases oc with
  | none => simp [aggKid, kidTrace]
  | some c =>
      simp only [aggKid, kidTrace, IH c rfl]
      cases hc : aggregateNode agg c with
      | none =>
          have hf : agg.filter c = true := (aggregateNode_none_iff agg c).mp hc
          simp [hf]
      | some cs =>
          have hf : agg.filter c = false := by
            rcases Bool.eq_false_or_eq_true (agg.filter c) with h | h
            · rw [(aggregateNode_none_iff agg c).mpr h] at hc
              exact absurd hc (by simp)
            · exact h
          simp [instrument, hf]

/-- C8: the fold engine call protocol.  Running the fold with every stage
instrumented to log an event produces the plain fold state beside exactly
the canonical trace: nothing for a filtered node (its subtree contributes
no state and is not traversed), otherwise init, accumulate on the node,
each present non-filtered child trace followed by its merge carrying the
quadrant index in slot order 0, 1, 2, 3, and one final finalize. -/
theorem aggregate_protocol {σ α : Type} (agg : TreeAggregate σ α) (n : QNode α) :
    aggregateNode (instrument agg) n =
      (aggregateNode agg n).map (fun s => (s, expectedTrace agg.filter n)) := by
  induction n using QNode.strongInduction with
  | _ n ih =>
    cases n with
    | mk d c0 c1 c2 c3 =>
      have ihk : ∀ (i : ℕ) (oc : Option (QNode α)),
          (QNode.mk d c0 c1 c2 c3).child i = oc → ∀ c, oc = some c →
          aggregateNode (instrument agg) c =
            (aggregateNode agg c).map (fun x => (x, expectedTrace agg.filter c)) := by
        intro i oc hoc c hc
        exact ih c (QNode.size_child_lt (hoc.trans hc))
      by_cases hf : agg.filter (QNode.mk d c0 c1 c2 c3) = true
      · rw [aggregateNode, aggregateNode]
        have hfi : (instrument agg).filter (QNode.mk d c0 c1 c2 c3) = true := hf
        simp [instrument, hf]
      · rw [aggregateNode, aggregateNode, expectedTrace]
        have hacc : (instrument agg).accumulate (instrument agg).initState
            (QNode.mk d c0 c1 c2 c3) =
            (agg.accumulate agg.initState (QNode.mk d c0 c1 c2 c3),
              [AggEvent.initE, AggEvent.accE (QNode.mk d c0 c1 c2 c3)]) := by
          simp [instrument]
        rw [hacc,
          aggKid_instrument agg _ _ c0 0 (ihk 0 c0 rfl),
          aggKid_instrument agg _ _ c1 1 (ihk 1 c1 rfl),
          aggKid_instrument agg _ _ c2 2 (ihk 2 c2 rfl),
          aggKid_instrument agg _ _ c3 3 (ihk 3 c3 rfl)]
        have hfi : (instrument agg).filter (QNode.mk d c0 c1 c2 c3) = agg.filter (QNode.mk d c0 c1 c2 c3) := rfl
        simp [hfi, hf, instrument, List.append_assoc]

end AggThms

section CentroidThms

variable {α : Type}

/-- The third component of the moving average fold accumulates exactly the
masses of the active children. -/
theorem foldKids_mass (cs : List (QNode α)) (acc : ℚ × ℚ × ℕ) :
    (cs.foldl (fun a c =>
        if c.active = true then mvAvg a c.center.lat c.center.lng c.mass else a) acc).2.2
      = cs.foldl (fun t c => if c.active = true then t + c.mass else t) acc.2.2 := by
  induction cs generalizing acc with
  | nil => rfl
  | cons c rest ih =>
      simp only [List.foldl_cons]
      by_cases h : c.active = true
      · rw [if_pos h, if_pos h, ih]
        rfl
      · rw [if_neg h, if_neg h, ih]

/-- The moving average fold computes the mass-weighted sums: multiplying
the folded center by the folded mass recovers the sum over the active
children of their center times mass, provided every active child has
positive mass. -/
theorem foldKids_wsum (cs : List (QNode α)) (acc : ℚ × ℚ × ℕ)
    (hm : ∀ c ∈ cs, c.active = true → 0 < c.mass) :
    ((cs.foldl (fun a c =>
        if c.active = true then mvAvg a c.center.lat c.center.lng c.mass else a) acc).1
      * (((cs.foldl (fun a c =>
        if c.active = true then mvAvg a c.center.lat c.center.lng c.mass else a) acc).2.2 : ℕ) : ℚ)
      = acc.1 * ((acc.2.2 : ℕ) : ℚ)
        + (cs.map (fun c =>
            if c.active = true then c.center.lat * (c.mass : ℚ) else 0)).sum)
    ∧ ((cs.foldl (fun a c =>
        if c.active = true then mvAvg a c.center.lat c.center.lng c.mass else a) acc).2.1
      * (((cs.foldl (fun a c =>
        if c.active = true then mvAvg a c.center.lat c.center.lng c.mass else a) acc).2.2 : ℕ) : ℚ)
      = acc.2.1 * ((acc.2.2 : ℕ) : ℚ)
        + (cs.map (fun c =>
            if c.active = true then c.center.lng * (c.mass : ℚ) else 0)).sum) := by
  induction cs generalizing acc with
  | nil => simp
  | cons c rest ih =>
      simp only [List.foldl_cons, List.map_cons, List.sum_cons]
      by_cases h : c.active = true
      · have hmass : 0 < c.mass := hm c (by simp) h
        have hpos : (0 : ℚ) < (acc.2.2 : ℚ) + (c.mass : ℚ) := by
          have h3 : (0 : ℚ) ≤ (acc.2.2 : ℚ) := by positivity
          have h2 : (0 : ℚ) < (c.mass : ℚ) := by exact_mod_cast hmass
          linarith
        have hne : (acc.2.2 : ℚ) + (c.mass : ℚ) ≠ 0 := ne_of_gt hpos
        have key1 : (mvAvg acc c.center.lat c.center.lng c.mass).1
            * (((mvAvg acc c.center.lat c.center.lng c.mass).2.2 : ℕ) : ℚ)
            = acc.1 * (acc.2.2 : ℚ) + c.center.lat * (c.mass : ℚ) := by
          simp only [mvAvg]
          push_cast
          field_simp
        have key2 : (mvAvg acc c.center.lat c.center.lng c.mass).2.1
            * (((mvAvg acc c.center.lat c.center.lng c.mass).2.2 : ℕ) : ℚ)
            = acc.2.1 * (acc.2.2 : ℚ) + c.center.lng * (c.mass : ℚ) := by
          simp only [mvAvg]
          push_cast
          field_simp
        have ih2 := ih (mvAvg acc c.center.lat c.center.lng c.mass)
          (fun c2 hc2 ha => hm c2 (by simp [hc2]) ha)
        rw [if_pos h]
        refine ⟨?_, ?_⟩
        · rw [ih2.1, key1, if_pos h]; ring
        · rw [ih2.2, key2, if_pos h]; ring
      · have ih2 := ih acc (fun c2 hc2 ha => hm c2 (by simp [hc2]) ha)
        rw [if_neg h]
        refine ⟨?_, ?_⟩
        · rw [ih2.1, if_neg h]; ring
        · rw [ih2.2, if_neg h]; ring

theorem mem_presentChildren {d : NodeData α} {c0 c1 c2 c3 : Option (QNode α)}
    {c : QNode α}
    (h : c0 = some c ∨ c1 = some c ∨ c2 = some c ∨ c3 = some c) :
    c ∈ (QNode.mk d c0 c1 c2 c3).presentChildren := by
  cases c0 <;> cases c1 <;> cases c2 <;> cases c3 <;> simp_all [QNode.presentChildren] <;>
    tauto

theorem tidy_mk_parts {d : NodeData α} {c0 c1 c2 c3 : Option (QNode α)}
    (h : tidy (QNode.mk d c0 c1 c2 c3) = true) :
    (d.leaf = true → c0 = none ∧ c1 = none ∧ c2 = none ∧ c3 = none)
    ∧ otidy c0 = true ∧ otidy c1 = true ∧ otidy c2 = true ∧ otidy c3 = true := by
  rw [tidy] at h
  simp only [Bool.and_eq_true] at h
  obtain ⟨⟨⟨⟨h1, h2⟩, h3⟩, h4⟩, h5⟩ := h
  refine ⟨?_, h2, h3, h4, h5⟩
  intro hl
  rw [hl] at h1
  simp only [if_true, Bool.and_eq_true, Option.isNone_iff_eq_none] at h1
  tauto

/-- allActive of an internal node flattens the per-child collections over
the present children. -/
theorem allActive_internal (d : NodeData α) (c0 c1 c2 c3 : Option (QNode α))
    (hl : d.leaf = false) :
    allActive (QNode.mk d c0 c1 c2 c3)
      = (((QNode.mk d c0 c1 c2 c3).presentChildren).map allActive).flatten := by
  cases c0 <;> cases c1 <;> cases c2 <;> cases c3 <;>
    simp [allActive, oallActive, QNode.presentChildren, hl, List.filterMap_cons]

/-- Folding the active masses over a list of consistent children counts all
points below them. -/
theorem sumMass_of_kids :
    ∀ (cs : List (QNode α)),
    (∀ c ∈ cs, (c.active = true → c.mass = (allActive c).length)
        ∧ (c.active = false → allActive c = [])) →
    ∀ (init : ℕ), cs.foldl (fun t c => if c.active = true then t + c.mass else t) init
      = init + (cs.map (fun c => (allActive c).length)).sum := by
  intro cs
  induction cs with
  | nil => intro _ init; simp
  | cons c rest ih =>
      intro h init
      simp only [List.foldl_cons, List.map_cons, List.sum_cons]
      have hc := h c (by simp)
      by_cases ha : c.active = true
      · rw [if_pos ha, ih (fun c2 h2 => h c2 (by simp [h2])), hc.1 ha]
        omega
      · rw [if_neg ha, ih (fun c2 h2 => h c2 (by simp [h2])),
          hc.2 (Bool.eq_false_iff.mpr ha)]
        simp

/-- The conditional weighted contributions of consistent children equal the
per-child coordinate sums. -/
theorem wsum_of_kids (g : α → ℚ) (ctr : QNode α → ℚ) :
    ∀ (cs : List (QNode α)),
    (∀ c ∈ cs, (c.active = true → ctr c * (c.mass : ℚ) = ((allActive c).map g).sum)
        ∧ (c.active = false → allActive c = [])) →
    (cs.map (fun c => if c.active = true then ctr c * (c.mass : ℚ) else 0)).sum
      = (cs.map (fun c => ((allActive c).map g).sum)).sum := by
  intro cs
  induction cs with
  | nil => intro _; simp
  | cons c rest ih =>
      intro h
      simp only [List.map_cons, List.sum_cons]
      have hc := h c (by simp)
      rw [ih (fun c2 h2 => h c2 (by simp [h2]))]
      by_cases ha : c.active = true
      · rw [if_pos ha, hc.1 ha]
      · rw [if_neg ha, hc.2 (Bool.eq_false_iff.mpr ha)]
        simp

theorem allActive_leaf (d2 : NodeData α) (k0 k1 k2 k3 : Option (QNode α))
    (hl : d2.leaf = true) :
    allActive (QNode.mk d2 k0 k1 k2 k3) = d2.activePoints := by
  rw [allActive]
  simp [hl]

theorem invAll_mk_internal (d2 : NodeData α) (k0 k1 k2 k3 : Option (QNode α))
    (hl : d2.leaf = false)
    (hm : d2.mass = massOfActiveKids (QNode.mk d2 k0 k1 k2 k3))
    (ha : d2.active = decide (0 < d2.mass))
    (h0 : oinvAll k0 = true) (h1 : oinvAll k1 = true)
    (h2 : oinvAll k2 = true) (h3 : oinvAll k3 = true) :
    invAll (QNode.mk d2 k0 k1 k2 k3) = true := by
  rw [invAll]
  simp [hl, hm, ha, h0, h1, h2, h3]

theorem centroidOk_mk_intro (la lo : α → ℚ) (d2 : NodeData α)
    (k0 k1 k2 k3 : Option (QNode α))
    (htop : d2.active = true → d2.mass = (allActive (QNode.mk d2 k0 k1 k2 k3)).length
        ∧ d2.center.lat = flatLat la (QNode.mk d2 k0 k1 k2 k3)
        ∧ d2.center.lng = flatLng lo (QNode.mk d2 k0 k1 k2 k3))
    (h0 : ocentroidOkAll la lo k0 = true) (h1 : ocentroidOkAll la lo k1 = true)
    (h2 : ocentroidOkAll la lo k2 = true) (h3 : ocentroidOkAll la lo k3 = true) :
    centroidOkAll la lo (QNode.mk d2 k0 k1 k2 k3) = true := by
  rw [centroidOkAll]
  by_cases ha : d2.active = true
  · obtain ⟨m1, m2, m3⟩ := htop ha
    simp [ha, m1, m2, m3, h0, h1, h2, h3]
  · have hf : d2.active = false := Bool.eq_false_iff.mpr ha
    simp [hf, h0, h1, h2, h3]

theorem tidy_mk_intro (d2 : NodeData α) (k0 k1 k2 k3 : Option (QNode α))
    (hleaf : d2.leaf = true → k0 = none ∧ k1 = none ∧ k2 = none ∧ k3 = none)
    (t0 : otidy k0 = true) (t1 : otidy k1 = true)
    (t2 : otidy k2 = true) (t3 : otidy k3 = true) :
    tidy (QNode.mk d2 k0 k1 k2 k3) = true := by
  rw [tidy]
  by_cases hl : d2.leaf = true
  · obtain ⟨e0, e1, e2, e3⟩ := hleaf hl
    subst e0; subst e1; subst e2; subst e3
    simp [hl, otidy]
  · have hf : d2.leaf = false := Bool.eq_false_iff.mpr hl
    simp [hf, t0, t1, t2, t3]

/-- The heart of the mass and centroid invariants: computeGravityCenter
(shallow) establishes the invariants on a node whose children, when the
node is internal, already satisfy them. -/
theorem computeShallow_good (la lo : α → ℚ) (m : QNode α)
    (htidy : tidy m = true)
    (hkids : m.leafF = false → ∀ c ∈ m.presentChildren,
        (c.active = true → 0 < c.mass ∧ c.mass = (allActive c).length
          ∧ c.center.lat * (c.mass : ℚ) = ((allActive c).map la).sum
          ∧ c.center.lng * (c.mass : ℚ) = ((allActive c).map lo).sum)
        ∧ (c.active = false → allActive c = [])
        ∧ centroidOkAll la lo c = true ∧ invAll c = true) :
    (computeShallow la lo m).mass = (allActive (computeShallow la lo m)).length
    ∧ (computeShallow la lo m).center.lat * (((computeShallow la lo m).mass : ℕ) : ℚ)
        = ((allActive (computeShallow la lo m)).map la).sum
    ∧ (computeShallow la lo m).center.lng * (((computeShallow la lo m).mass : ℕ) : ℚ)
        = ((allActive (computeShallow la lo m)).map lo).sum
    ∧ (computeShallow la lo m).active = decide (0 < (computeShallow la lo m).mass)
    ∧ invAll (computeShallow la lo m) = true
    ∧ centroidOkAll la lo (computeShallow la lo m) = true
    ∧ tidy (computeShallow la lo m) = true := by
  cases m with
  | mk d c0 c1 c2 c3 =>
    obtain ⟨hleafkids, ht0, ht1, ht2, ht3⟩ := tidy_mk_parts htidy
    by_cases hl : d.leaf = true
    · obtain ⟨e0, e1, e2, e3⟩ := hleafkids hl
      subst e0; subst e1; subst e2; subst e3
      have hr : computeShallow la lo (QNode.mk d none none none none)
          = QNode.mk { d with
              center := ⟨(if 0 < d.activePoints.length then
                  (d.activePoints.map la).sum / (d.activePoints.length : ℚ) else 0),
                (if 0 < d.activePoints.length then
                  (d.activePoints.map lo).sum / (d.activePoints.length : ℚ) else 0)⟩,
              mass := d.activePoints.length,
              active := decide (0 < d.activePoints.length) }
            none none none none := by
        unfold computeShallow
        rw [if_pos (by simpa [QNode.leafF] using hl)]
        rfl
      rw [hr]
      have hall : allActive (QNode.mk { d with
              center := ⟨(if 0 < d.activePoints.length then
                  (d.activePoints.map la).sum / (d.activePoints.length : ℚ) else 0),
                (if 0 < d.activePoints.length then
                  (d.activePoints.map lo).sum / (d.activePoints.length : ℚ) else 0)⟩,
              mass := d.activePoints.length,
              active := decide (0 < d.activePoints.length) }
            none none none none) = d.activePoints := by
        rw [allActive]
        simp [hl]
      rw [hall]
      by_cases ht : 0 < d.activePoints.length
      · have hne : ((d.activePoints.length : ℕ) : ℚ) ≠ 0 := by
          exact_mod_cast Nat.pos_iff_ne_zero.mp ht
        refine ⟨by simp, ?_, ?_, by simp, ?_, ?_, ?_⟩
        · simp only [QNode.center_mk, QNode.mass_mk, if_pos ht]
          exact div_mul_cancel₀ _ hne
        · simp only [QNode.center_mk, QNode.mass_mk, if_pos ht]
          exact div_mul_cancel₀ _ hne
        · rw [invAll]
          simp [hl, oinvAll]
        · rw [centroidOkAll]
          simp [ocentroidOkAll, flatLat, flatLng, allActive_leaf, hl, ht]
        · rw [tidy]
          simp [hl, otidy]
      · have hz : d.activePoints.length = 0 := by omega
        have hnil : d.activePoints = [] := List.length_eq_zero.mp hz
        refine ⟨by simp, ?_, ?_, by simp, ?_, ?_, ?_⟩
        · simp [hnil, if_neg ht]
        · simp [hnil, if_neg ht]
        · rw [invAll]
          simp [hl, oinvAll]
        · rw [centroidOkAll]
          simp [ocentroidOkAll, ht]
        · rw [tidy]
          simp [hl, otidy]
    · have hl2 : d.leaf = false := Bool.eq_false_iff.mpr hl
      have hk := hkids (by simp [QNode.leafF, hl2])
      have hS : ∀ c ∈ (QNode.mk d c0 c1 c2 c3).presentChildren,
          (c.active = true → c.mass = (allActive c).length)
          ∧ (c.active = false → allActive c = []) :=
        fun c hc => ⟨fun ha => ((hk c hc).1 ha).2.1, (hk c hc).2.1⟩
      have hmpos : ∀ c ∈ (QNode.mk d c0 c1 c2 c3).presentChildren,
          c.active = true → 0 < c.mass :=
        fun c hc ha => ((hk c hc).1 ha).1
      have hSlat : ∀ c ∈ (QNode.mk d c0 c1 c2 c3).presentChildren,
          (c.active = true → c.center.lat * (c.mass : ℚ) = ((allActive c).map la).sum)
          ∧ (c.active = false → allActive c = []) :=
        fun c hc => ⟨fun ha => ((hk c hc).1 ha).2.2.1, (hk c hc).2.1⟩
      have hSlng : ∀ c ∈ (QNode.mk d c0 c1 c2 c3).presentChildren,
          (c.active = true → c.center.lng * (c.mass : ℚ) = ((allActive c).map lo).sum)
          ∧ (c.active = false → allActive c = []) :=
        fun c hc => ⟨fun ha => ((hk c hc).1 ha).2.2.2, (hk c hc).2.1⟩
      have hr : computeShallow la lo (QNode.mk d c0 c1 c2 c3)
          = QNode.mk { d with
              center := ⟨(foldKids ((QNode.mk d c0 c1 c2 c3).presentChildren)).1,
                (foldKids ((QNode.mk d c0 c1 c2 c3).presentChildren)).2.1⟩,
              mass := (foldKids ((QNode.mk d c0 c1 c2 c3).presentChildren)).2.2,
              active := decide (0 < (foldKids ((QNode.mk d c0 c1 c2 c3).presentChildren)).2.2) }
            c0 c1 c2 c3 := by
        unfold computeShallow
        rw [if_neg (by simp [QNode.leafF, hl2])]
        rfl
      have hmass : (foldKids ((QNode.mk d c0 c1 c2 c3).presentChildren)).2.2
          = (((QNode.mk d c0 c1 c2 c3).presentChildren).map
              (fun c => (allActive c).length)).sum := by
        rw [foldKids, foldKids_mass, sumMass_of_kids _ hS 0]
        simp
      have hwlat := (foldKids_wsum ((QNode.mk d c0 c1 c2 c3).presentChildren) (0, 0, 0)
        hmpos).1
      have hwlng := (foldKids_wsum ((QNode.mk d c0 c1 c2 c3).presentChildren) (0, 0, 0)
        hmpos).2
      rw [wsum_of_kids la (fun c => c.center.lat) _ hSlat] at hwlat
      rw [wsum_of_kids lo (fun c => c.center.lng) _ hSlng] at hwlng
      simp only [zero_mul, zero_add, Nat.cast_zero, mul_zero] at hwlat hwlng
      have hall : allActive (QNode.mk { d with
              center := ⟨(foldKids ((QNode.mk d c0 c1 c2 c3).presentChildren)).1,
                (foldKids ((QNode.mk d c0 c1 c2 c3).presentChildren)).2.1⟩,
              mass := (foldKids ((QNode.mk d c0 c1 c2 c3).presentChildren)).2.2,
              active := decide (0 < (foldKids ((QNode.mk d c0 c1 c2 c3).presentChildren)).2.2) }
            c0 c1 c2 c3)
          = (((QNode.mk d c0 c1 c2 c3).presentChildren).map allActive).flatten := by
        rw [allActive_internal _ c0 c1 c2 c3 (by simpa using hl2)]
        rfl
      have hlen : ((((QNode.mk d c0 c1 c2 c3).presentChildren).map allActive).flatten).length
          = (((QNode.mk d c0 c1 c2 c3).presentChildren).map
              (fun c => (allActive c).length)).sum := by
        rw [List.length_join, List.map_map]
        rfl
      have hsumla : (((((QNode.mk d c0 c1 c2 c3).presentChildren).map allActive).flatten).map
            la).sum
          = (((QNode.mk d c0 c1 c2 c3).presentChildren).map
              (fun c => ((allActive c).map la).sum)).sum := by
        rw [List.map_flatten, List.sum_flatten, List.map_map, List.map_map]
        rfl
      have hsumlo : (((((QNode.mk d c0 c1 c2 c3).presentChildren).map allActive).flatten).map
            lo).sum
          = (((QNode.mk d c0 c1 c2 c3).presentChildren).map
              (fun c => ((allActive c).map lo).sum)).sum := by
        rw [List.map_flatten, List.sum_flatten, List.map_map, List.map_map]
        rfl
      rw [hr]
      have hi0 : oinvAll c0 = true := by
        cases h0 : c0 with
        | none => simp [oinvAll]
        | some c =>
            simp only [oinvAll]
            exact (hk c (mem_presentChildren (by simp [h0]))).2.2.2
      have hi1 : oinvAll c1 = true := by
        cases h0 : c1 with
        | none => simp [oinvAll]
        | some c =>
            simp only [oinvAll]
            exact (hk c (mem_presentChildren (by simp [h0]))).2.2.2
      have hi2 : oinvAll c2 = true := by
        cases h0 : c2 with
        | none => simp [oinvAll]
        | some c =>
            simp only [oinvAll]
            exact (hk c (mem_presentChildren (by simp [h0]))).2.2.2
      have hi3 : oinvAll c3 = true := by
        cases h0 : c3 with
        | none => simp [oinvAll]
        | some c =>
            simp only [oinvAll]
            exact (hk c (mem_presentChildren (by simp [h0]))).2.2.2
      have hq0 : ocentroidOkAll la lo c0 = true := by
        cases h0 : c0 with
        | none => simp [ocentroidOkAll]
        | some c =>
            simp only [ocentroidOkAll]
            exact (hk c (mem_presentChildren (by simp [h0]))).2.2.1
      have hq1 : ocentroidOkAll la lo c1 = true := by
        cases h0 : c1 with
        | none => simp [ocentroidOkAll]
        | some c =>
            simp only [ocentroidOkAll]
            exact (hk c (mem_presentChildren (by simp [h0]))).2.2.1
      have hq2 : ocentroidOkAll la lo c2 = true := by
        cases h0 : c2 with
        | none => simp [ocentroidOkAll]
        | some c =>
            simp only [ocentroidOkAll]
            exact (hk c (mem_presentChildren (by simp [h0]))).2.2.1
      have hq3 : ocentroidOkAll la lo c3 = true := by
        cases h0 : c3 with
        | none => simp [ocentroidOkAll]
        | some c =>
            simp only [ocentroidOkAll]
            exact (hk c (mem_presentChildren (by simp [h0]))).2.2.1
      have hmk : massOfActiveKids (QNode.mk { d with
              center := ⟨(foldKids ((QNode.mk d c0 c1 c2 c3).presentChildren)).1,
                (foldKids ((QNode.mk d c0 c1 c2 c3).presentChildren)).2.1⟩,
              mass := (foldKids ((QNode.mk d c0 c1 c2 c3).presentChildren)).2.2,
              active := decide (0 < (foldKids ((QNode.mk d c0 c1 c2 c3).presentChildren)).2.2) }
            c0 c1 c2 c3)
          = (foldKids ((QNode.mk d c0 c1 c2 c3).presentChildren)).2.2 := by
        rw [massOfActiveKids, foldKids, foldKids_mass]
        rfl
      refine ⟨?_, ?_, ?_, by simp, ?_, ?_, ?_⟩
      · show (foldKids ((QNode.mk d c0 c1 c2 c3).presentChildren)).2.2 = _
        rw [hall, hlen]
        exact hmass
      · show (foldKids ((QNode.mk d c0 c1 c2 c3).presentChildren)).1
            * (((foldKids ((QNode.mk d c0 c1 c2 c3).presentChildren)).2.2 : ℕ) : ℚ) = _
        rw [hall, hsumla, foldKids]
        exact hwlat
      · show (foldKids ((QNode.mk d c0 c1 c2 c3).presentChildren)).2.1
            * (((foldKids ((QNode.mk d c0 c1 c2 c3).presentChildren)).2.2 : ℕ) : ℚ) = _
        rw [hall, hsumlo, foldKids]
        exact hwlng
      · exact invAll_mk_internal _ c0 c1 c2 c3 (by simpa using hl2) hmk.symm rfl
          hi0 hi1 hi2 hi3
      · refine centroidOk_mk_intro la lo _ c0 c1 c2 c3 ?_ hq0 hq1 hq2 hq3
        intro ha
        have hpos : 0 < (foldKids ((QNode.mk d c0 c1 c2 c3).presentChildren)).2.2 := by
          simpa using ha
        have hne : (((foldKids ((QNode.mk d c0 c1 c2 c3).presentChildren)).2.2 : ℕ) : ℚ) ≠ 0 := by
          exact_mod_cast Nat.pos_iff_ne_zero.mp hpos
        refine ⟨?_, ?_, ?_⟩
        · show (foldKids ((QNode.mk d c0 c1 c2 c3).presentChildren)).2.2 = _
          rw [hall, hlen]
          exact hmass
        · show (foldKids ((QNode.mk d c0 c1 c2 c3).presentChildren)).1 = _
          rw [flatLat, hall, hsumla, hlen, ← hmass, eq_div_iff hne, foldKids]
          exact hwlat
        · show (foldKids ((QNode.mk d c0 c1 c2 c3).presentChildren)).2.1 = _
          rw [flatLng, hall, hsumlo, hlen, ← hmass, eq_div_iff hne, foldKids]
          exact hwlng
      · exact tidy_mk_intro _ c0 c1 c2 c3
          (fun hleaf => absurd hleaf (by simp [hl2])) ht0 ht1 ht2 ht3

theorem presentChildren_mem_elim {d : NodeData α} {c0 c1 c2 c3 : Option (QNode α)}
    {c : QNode α}
    (hc : c ∈ (QNode.mk d c0 c1 c2 c3).presentChildren) :
    c0 = some c ∨ c1 = some c ∨ c2 = some c ∨ c3 = some c := by
  cases c0 <;> cases c1 <;> cases c2 <;> cases c3 <;>
    simp_all [QNode.presentChildren] <;> tauto

/-- Conversion from the seven invariant conclusions to the per-child
hypothesis package of computeShallow_good. -/
theorem goods_to_S (la lo : α → ℚ) (c : QNode α)
    (h1 : c.mass = (allActive c).length)
    (h2 : c.center.lat * ((c.mass : ℕ) : ℚ) = ((allActive c).map la).sum)
    (h3 : c.center.lng * ((c.mass : ℕ) : ℚ) = ((allActive c).map lo).sum)
    (h4 : c.active = decide (0 < c.mass))
    (h5 : invAll c = true) (h6 : centroidOkAll la lo c = true) :
    (c.active = true → 0 < c.mass ∧ c.mass = (allActive c).length
      ∧ c.center.lat * (c.mass : ℚ) = ((allActive c).map la).sum
      ∧ c.center.lng * (c.mass : ℚ) = ((allActive c).map lo).sum)
    ∧ (c.active = false → allActive c = [])
    ∧ centroidOkAll la lo c = true ∧ invAll c = true := by
  refine ⟨?_, ?_, h6, h5⟩
  · intro ha
    rw [h4] at ha
    have hm : 0 < c.mass := by simpa using ha
    exact ⟨hm, h1, h2, h3⟩
  · intro ha
    rw [h4] at ha
    have hm : ¬ 0 < c.mass := by simpa using ha
    have hz : c.mass = 0 := by omega
    rw [hz] at h1
    exact List.length_eq_zero.mp h1.symm

/-- computeGravityCenter with computeChild true (the call made by the
QuadTree constructor and by every public add) establishes all the
invariants on every tidy tree. -/
theorem recompute_good (la lo : α → ℚ) :
    ∀ (n : QNode α), tidy n = true →
    (recompute la lo n).mass = (allActive (recompute la lo n)).length
    ∧ (recompute la lo n).center.lat * (((recompute la lo n).mass : ℕ) : ℚ)
        = ((allActive (recompute la lo n)).map la).sum
    ∧ (recompute la lo n).center.lng * (((recompute la lo n).mass : ℕ) : ℚ)
        = ((allActive (recompute la lo n)).map lo).sum
    ∧ (recompute la lo n).active = decide (0 < (recompute la lo n).mass)
    ∧ invAll (recompute la lo n) = true
    ∧ centroidOkAll la lo (recompute la lo n) = true
    ∧ tidy (recompute la lo n) = true := by
  intro n
  induction n using QNode.strongInduction with
  | _ n ih =>
    intro htidy
    cases n with
    | mk d c0 c1 c2 c3 =>
      rw [recompute]
      obtain ⟨hleafkids, ht0, ht1, ht2, ht3⟩ := tidy_mk_parts htidy
      have hsub : ∀ (i : ℕ) (oc : Option (QNode α)),
          (QNode.mk d c0 c1 c2 c3).child i = oc → otidy oc = true →
          otidy (orecompute la lo oc) = true
          ∧ (∀ c2, orecompute la lo oc = some c2 →
              (c2.active = true → 0 < c2.mass ∧ c2.mass = (allActive c2).length
                ∧ c2.center.lat * (c2.mass : ℚ) = ((allActive c2).map la).sum
                ∧ c2.center.lng * (c2.mass : ℚ) = ((allActive c2).map lo).sum)
              ∧ (c2.active = false → allActive c2 = [])
              ∧ centroidOkAll la lo c2 = true ∧ invAll c2 = true) := by
        intro i oc hoc hto
        cases oc with
        | none => exact ⟨by simp [orecompute, otidy], fun c2 hc2 => by simp [orecompute] at hc2⟩
        | some co =>
            have htco : tidy co = true := by simpa [otidy] using hto
            have hg := ih co (QNode.size_child_lt hoc) htco
            constructor
            · simp only [orecompute, otidy]
              exact hg.2.2.2.2.2.2
            · intro c2 hc2
              simp only [orecompute, Option.some.injEq] at hc2
              subst hc2
              exact goods_to_S la lo _ hg.1 hg.2.1 hg.2.2.1 hg.2.2.2.1
                hg.2.2.2.2.1 hg.2.2.2.2.2.1
      have h0 := hsub 0 c0 rfl ht0
      have h1 := hsub 1 c1 rfl ht1
      have h2 := hsub 2 c2 rfl ht2
      have h3 := hsub 3 c3 rfl ht3
      apply computeShallow_good
      · refine tidy_mk_intro _ _ _ _ _ ?_ h0.1 h1.1 h2.1 h3.1
        intro hl
        obtain ⟨e0, e1, e2, e3⟩ := hleafkids hl
        subst e0; subst e1; subst e2; subst e3
        exact ⟨rfl, rfl, rfl, rfl⟩
      · intro _ c hc
        rcases presentChildren_mem_elim hc with h | h | h | h
        · exact h0.2 c h
        · exact h1.2 c h
        · exact h2.2 c h
        · exact h3.2 c h

/-- The public filter establishes all the invariants on every tidy tree. -/
theorem filterNode_good (la lo : α → ℚ) (pred : α → Bool) :
    ∀ (n : QNode α), tidy n = true →
    invAll (filterNode la lo pred n) = true
    ∧ centroidOkAll la lo (filterNode la lo pred n) = true
    ∧ tidy (filterNode la lo pred n) = true
    ∧ (filterNode la lo pred n).mass = (allActive (filterNode la lo pred n)).length
    ∧ (filterNode la lo pred n).center.lat * (((filterNode la lo pred n).mass : ℕ) : ℚ)
        = ((allActive (filterNode la lo pred n)).map la).sum
    ∧ (filterNode la lo pred n).center.lng * (((filterNode la lo pred n).mass : ℕ) : ℚ)
        = ((allActive (filterNode la lo pred n)).map lo).sum
    ∧ (filterNode la lo pred n).active = decide (0 < (filterNode la lo pred n).mass) := by
  intro n
  induction n using QNode.strongInduction with
  | _ n ih =>
    intro htidy
    cases n with
    | mk d c0 c1 c2 c3 =>
      obtain ⟨hleafkids, ht0, ht1, ht2, ht3⟩ := tidy_mk_parts htidy
      rw [filterNode]
      by_cases hl : d.leaf = true
      · rw [if_pos hl]
        obtain ⟨e0, e1, e2, e3⟩ := hleafkids hl
        subst e0; subst e1; subst e2; subst e3
        have hg := computeShallow_good la lo
          (QNode.mk { d with activePoints := d.points.filter pred } none none none none)
          (by
            refine tidy_mk_intro _ _ _ _ _ ?_ ?_ ?_ ?_ ?_ <;>
              simp [otidy])
          (by
            intro hlf
            exact absurd hlf (by simp [QNode.leafF, hl]))
        exact ⟨hg.2.2.2.2.1, hg.2.2.2.2.2.1, hg.2.2.2.2.2.2, hg.1, hg.2.1, hg.2.2.1,
          hg.2.2.2.1⟩
      · rw [if_neg hl]
        have hsub : ∀ (i : ℕ) (oc : Option (QNode α)),
            (QNode.mk d c0 c1 c2 c3).child i = oc → otidy oc = true →
            otidy (ofilterNode la lo pred oc) = true
            ∧ (∀ c2, ofilterNode la lo pred oc = some c2 →
                (c2.active = true → 0 < c2.mass ∧ c2.mass = (allActive c2).length
                  ∧ c2.center.lat * (c2.mass : ℚ) = ((allActive c2).map la).sum
                  ∧ c2.center.lng * (c2.mass : ℚ) = ((allActive c2).map lo).sum)
                ∧ (c2.active = false → allActive c2 = [])
                ∧ centroidOkAll la lo c2 = true ∧ invAll c2 = true) := by
          intro i oc hoc hto
          cases oc with
          | none =>
              exact ⟨by simp [ofilterNode, otidy], fun c2 hc2 => by simp [ofilterNode] at hc2⟩
          | some co =>
              have htco : tidy co = true := by simpa [otidy] using hto
              have hg := ih co (QNode.size_child_lt hoc) htco
              constructor
              · simp only [ofilterNode, otidy]
                exact hg.2.2.1
              · intro c2 hc2
                simp only [ofilterNode, Option.some.injEq] at hc2
                subst hc2
                exact goods_to_S la lo _ hg.2.2.2.1 hg.2.2.2.2.1 hg.2.2.2.2.2.1
                  hg.2.2.2.2.2.2 hg.1 hg.2.1
        have h0 := hsub 0 c0 rfl ht0
        have h1 := hsub 1 c1 rfl ht1
        have h2 := hsub 2 c2 rfl ht2
        have h3 := hsub 3 c3 rfl ht3
        have hg := computeShallow_good la lo
          (QNode.mk d (ofilterNode la lo pred c0) (ofilterNode la lo pred c1)
            (ofilterNode la lo pred c2) (ofilterNode la lo pred c3))
          (by
            refine tidy_mk_intro _ _ _ _ _ ?_ h0.1 h1.1 h2.1 h3.1
            intro hlf
            exact absurd hlf (by simp [hl]))
          (by
            intro _ c hc
            rcases presentChildren_mem_elim hc with h | h | h | h
            · exact h0.2 c h
            · exact h1.2 c h
            · exact h2.2 c h
            · exact h3.2 c h)
        exact ⟨hg.2.2.2.2.1, hg.2.2.2.2.2.1, hg.2.2.2.2.2.2, hg.1, hg.2.1, hg.2.2.1,
          hg.2.2.2.1⟩

theorem tidy_newLeaf (la lo : α → ℚ) (b : Bounds) (pt : α) :
    tidy (newLeaf la lo b pt) = true ∧ (newLeaf la lo b pt).leafF = true := by
  constructor <;> rfl

theorem tidy_setChild {m c : QNode α} (i : ℕ)
    (hleaf : m.leafF = false) (hm : tidy m = true) (hc : tidy c = true) :
    tidy (m.setChild i (some c)) = true ∧ (m.setChild i (some c)).leafF = false := by
  cases m with
  | mk d c0 c1 c2 c3 =>
    obtain ⟨hlk, t0, t1, t2, t3⟩ := tidy_mk_parts hm
    have hl2 : d.leaf = false := by simpa [QNode.leafF] using hleaf
    match i with
    | 0 =>
        exact ⟨tidy_mk_intro _ _ _ _ _ (fun h => absurd h (by simp [hl2]))
          (by simp [otidy, hc]) t1 t2 t3, by simpa [QNode.leafF] using hl2⟩
    | 1 =>
        exact ⟨tidy_mk_intro _ _ _ _ _ (fun h => absurd h (by simp [hl2]))
          t0 (by simp [otidy, hc]) t2 t3, by simpa [QNode.leafF] using hl2⟩
    | 2 =>
        exact ⟨tidy_mk_intro _ _ _ _ _ (fun h => absurd h (by simp [hl2]))
          t0 t1 (by simp [otidy, hc]) t3, by simpa [QNode.leafF] using hl2⟩
    | 3 =>
        exact ⟨tidy_mk_intro _ _ _ _ _ (fun h => absurd h (by simp [hl2]))
          t0 t1 t2 (by simp [otidy, hc]), by simpa [QNode.leafF] using hl2⟩
    | (k + 4) =>
        exact ⟨hm, hleaf⟩

theorem tidy_setData_same {m : QNode α} {dd : NodeData α}
    (hm : tidy m = true) (hsame : dd.leaf = m.leafF) :
    tidy (m.setData dd) = true := by
  cases m with
  | mk d c0 c1 c2 c3 =>
    obtain ⟨hlk, t0, t1, t2, t3⟩ := tidy_mk_parts hm
    refine tidy_mk_intro _ _ _ _ _ ?_ t0 t1 t2 t3
    intro hl
    apply hlk
    have hsame2 : dd.leaf = d.leaf := by simpa [QNode.leafF] using hsame
    rw [← hsame2]
    exact hl

theorem tidy_markInternal {d : NodeData α} {c0 c1 c2 c3 : Option (QNode α)}
    (hm : tidy (QNode.mk d c0 c1 c2 c3) = true) (dd : NodeData α)
    (hdd : dd.leaf = false) :
    tidy (QNode.mk dd c0 c1 c2 c3) = true
    ∧ (QNode.mk dd c0 c1 c2 c3).leafF = false := by
  obtain ⟨hlk, t0, t1, t2, t3⟩ := tidy_mk_parts hm
  exact ⟨tidy_mk_intro _ _ _ _ _ (fun h => absurd h (by simp [hdd])) t0 t1 t2 t3,
    by simpa [QNode.leafF] using hdd⟩

/-- Insertion preserves tidiness, at every fuel:  the public add keeps
leaves childless. -/
theorem addFuel_tidy (la lo : α → ℚ) (eps : ℚ) :
    ∀ (f : ℕ),
    (∀ (n : QNode α) (pt : α) (r : QNode α), tidy n = true →
        addFuel la lo eps f n pt = some r → tidy r = true)
    ∧ (∀ (m : QNode α) (q : α) (x y : ℚ) (r : QNode α), tidy m = true → m.leafF = false →
        addToChildF la lo eps f m q x y = some r → tidy r = true ∧ r.leafF = false) := by
  intro f
  induction f with
  | zero =>
      constructor
      · intro n pt r _ h
        exact absurd h (by simp [addFuel])
      · intro m q x y r hm hl h
        rw [addToChildF] at h
        cases hch : m.child (routeIndex m.bounds x y) with
        | none =>
            rw [hch] at h
            simp only [Option.some.injEq] at h
            subst h
            exact tidy_setChild _ hl hm (tidy_newLeaf la lo _ q).1
        | some c =>
            rw [hch] at h
            exact absurd h (by simp [addFuel])
  | succ f ihf =>
      have hR : ∀ (ps : List α) (x y : ℚ) (m : QNode α), tidy m = true → m.leafF = false →
          ∀ r, ps.foldlM (fun m2 q => addToChildF la lo eps f m2 q x y) m = some r →
          tidy r = true ∧ r.leafF = false := by
        intro ps x y
        induction ps with
        | nil =>
            intro m hm hl r h
            simp only [List.foldlM_nil, Option.pure_def, Option.some.injEq] at h
            subst h
            exact ⟨hm, hl⟩
        | cons p rest ihp =>
            intro m hm hl r h
            rw [List.foldlM_cons] at h
            cases hstep : addToChildF la lo eps f m p x y with
            | none => rw [hstep] at h; exact absurd h (by simp)
            | some m2 =>
                rw [hstep] at h
                obtain ⟨hm2, hl2⟩ := ihf.2 m p x y m2 hm hl hstep
                exact ihp m2 hm2 hl2 r h
      have hP : ∀ (n : QNode α) (pt : α) (r : QNode α), tidy n = true →
          addFuel la lo eps (f + 1) n pt = some r → tidy r = true := by
        intro n pt r htn h
        rw [addFuel_succ] at h
        by_cases hlf : n.leafF = false
        · rw [if_pos hlf] at h
          exact (ihf.2 n pt (la pt) (lo pt) r htn hlf h).1
        · rw [if_neg hlf] at h
          by_cases hemp : n.points.isEmpty
          · rw [if_pos hemp] at h
            simp only [Option.some.injEq] at h
            subst h
            exact tidy_setData_same htn rfl
          · rw [if_neg (by simpa using hemp)] at h
            by_cases hcond : |n.refLatD - la pt| < eps ∧ |n.refLngD - lo pt| < eps
            · rw [if_pos hcond] at h
              simp only [Option.some.injEq] at h
              subst h
              exact tidy_setData_same htn rfl
            · rw [if_neg hcond] at h
              rw [convertF] at h
              cases hfold : n.points.foldlM
                  (fun m2 q => addToChildF la lo eps f m2 q n.refLatD n.refLngD)
                  (n.setData { n.data with leaf := false }) with
              | none => rw [hfold] at h; exact absurd h (by simp)
              | some m0 =>
                  rw [hfold] at h
                  have hbase : tidy (n.setData { n.data with leaf := false }) = true
                      ∧ (n.setData { n.data with leaf := false }).leafF = false := by
                    cases n with
                    | mk d c0 c1 c2 c3 => exact tidy_markInternal htn _ rfl
                  obtain ⟨hm0, hl0⟩ := hR n.points n.refLatD n.refLngD _ hbase.1 hbase.2 m0 hfold
                  simp only [Option.map_some, Option.bind_some] at h
                  have hm1 : tidy (m0.setData { m0.data with
                      points := [], activePoints := [], refLat := none, refLng := none }) = true :=
                    tidy_setData_same hm0 rfl
                  have hl1 : (m0.setData { m0.data with
                      points := [], activePoints := [], refLat := none, refLng := none }).leafF
                      = false := by
                    cases m0 with
                    | mk d c0 c1 c2 c3 => simpa [QNode.leafF] using hl0
                  exact (ihf.2 _ pt (la pt) (lo pt) r hm1 hl1 h).1
      refine ⟨hP, ?_⟩
      intro m q x y r hm hl h
      rw [addToChildF] at h
      cases hch : m.child (routeIndex m.bounds x y) with
      | none =>
          rw [hch] at h
          simp only [Option.some.injEq] at h
          subst h
          exact tidy_setChild _ hl hm (tidy_newLeaf la lo _ q).1
      | some c =>
          rw [hch] at h
          obtain ⟨c2, hadd, hrr⟩ : ∃ c2, addFuel la lo eps (f + 1) c q = some c2
              ∧ r = m.setChild (routeIndex m.bounds x y) (some c2) := by
            cases hadd2 : addFuel la lo eps (f + 1) c q with
            | none => simp [hadd2] at h
            | some c2 =>
                simp only [hadd2, Option.map_some', Option.some.injEq] at h
                exact ⟨c2, rfl, h.symm⟩
          subst hrr
          have htc : tidy c = true := by
            cases m with
            | mk d c0 c1 c2 c3 =>
                obtain ⟨hlk, t0, t1, t2, t3⟩ := tidy_mk_parts hm
                rcases @presentChildren_mem_elim _ d c0 c1 c2 c3 c
                  (mem_presentChildren (by
                    rcases hch2 : routeIndex (QNode.mk d c0 c1 c2 c3).bounds x y
                        with _ | _ | _ | _ | k
                    all_goals rw [hch2] at hch
                    · exact Or.inl hch
                    · exact Or.inr (Or.inl hch)
                    · exact Or.inr (Or.inr (Or.inl hch))
                    · exact Or.inr (Or.inr (Or.inr hch))
                    · exact absurd hch (by simp [QNode.child]))) with
                  h2 | h2 | h2 | h2
                · rw [h2] at t0; simpa [otidy] using t0
                · rw [h2] at t1; simpa [otidy] using t1
                · rw [h2] at t2; simpa [otidy] using t2
                · rw [h2] at t3; simpa [otidy] using t3
          have hc2 : tidy c2 = true := hP c q c2 htc hadd
          exact tidy_setChild _ hl hm hc2

theorem emptyRoot_tidy (la lo : α → ℚ) (b : Bounds) :
    tidy (emptyRoot la lo b) = true := by
  rfl

theorem buildFuel_tidy (la lo : α → ℚ) (eps : ℚ) (b : Bounds) (f : ℕ) (pts : List α)
    (t : QNode α) (h : buildFuel la lo eps b f pts = some t) : tidy t = true := by
  rw [buildFuel] at h
  have main : ∀ (ps : List α) (m : QNode α), tidy m = true →
      ∀ t2, ps.foldlM (fun n p => addFuel la lo eps f n p) m = some t2 →
      tidy t2 = true := by
    intro ps
    induction ps with
    | nil =>
        intro m hm t2 h2
        simp only [List.foldlM_nil, Option.pure_def, Option.some.injEq] at h2
        subst h2
        exact hm
    | cons p rest ih =>
        intro m hm t2 h2
        rw [List.foldlM_cons] at h2
        cases hstep : addFuel la lo eps f m p with
        | none => rw [hstep] at h2; exact absurd h2 (by simp)
        | some m2 =>
            rw [hstep] at h2
            exact ih m2 ((addFuel_tidy la lo eps f).1 m p m2 hm hstep) t2 h2
  exact main pts _ (emptyRoot_tidy la lo b) t h

/-- Every publicly reachable tree is tidy, satisfies the mass and active
invariant everywhere, and has exact centroids everywhere. -/
theorem reach_good (la lo : α → ℚ) (eps : ℚ) (s : QNode α) (h : Reach la lo eps s) :
    tidy s = true ∧ invAll s = true ∧ centroidOkAll la lo s = true := by
  induction h with
  | construct b f pts t ht =>
      have htt := buildFuel_tidy la lo eps b f pts t ht
      have hg := recompute_good la lo t htt
      exact ⟨hg.2.2.2.2.2.2, hg.2.2.2.2.1, hg.2.2.2.2.2.1⟩
  | addStep s s2 f pt hs ha ih =>
      have ht2 : tidy s2 = true := (addFuel_tidy la lo eps f).1 s pt s2 ih.1 ha
      have hg := recompute_good la lo s2 ht2
      exact ⟨hg.2.2.2.2.2.2, hg.2.2.2.2.1, hg.2.2.2.2.2.1⟩
  | filterStep s pred hs ih =>
      have hg := filterNode_good la lo pred s ih.1
      exact ⟨hg.2.2.1, hg.1, hg.2.1⟩

/-- C1: after construction, and after every public add and every public
filter, every node of the tree satisfies: a leaf carries the count of its
activePoints as its mass, an internal node carries the sum of the masses of
its present active children, and the active flag holds exactly when the
mass is positive. -/
theorem tree_mass_active_invariant (la lo : α → ℚ) (eps : ℚ)
    (s : QNode α) (h : Reach la lo eps s) : invAll s = true :=
  (reach_good la lo eps s h).2.1

/-- C1 witness: the invariant on a concretely constructed two-point tree. -/
theorem tree_mass_active_invariant_witness :
    (buildFuel wLat wLng (1/10) wBounds 5 wPts = some wBuildT)
    ∧ invAll (recompute wLat wLng wBuildT) = true :=
  ⟨by with_unfolding_all rfl,
    tree_mass_active_invariant wLat wLng (1/10) _
      (Reach.construct wBounds 5 wPts wBuildT (by with_unfolding_all rfl))⟩

/-- C2: after construction, and after every public add and every public
filter, every active node of the tree has mass equal to the number of
active points in its subtree and gravity center equal, per coordinate, to
their flat arithmetic mean, exactly, in the rational-number model of the
float arithmetic: the incremental moving-average combination over active
children yields exactly the recursive mass-weighted average (hence agrees
with a direct flat computation within any positive tolerance). -/
theorem tree_centroid_exact (la lo : α → ℚ) (eps : ℚ)
    (s : QNode α) (h : Reach la lo eps s) : centroidOkAll la lo s = true :=
  (reach_good la lo eps s h).2.2

/-- C2 witness: exact centroids on a concretely constructed two-point tree. -/
theorem tree_centroid_exact_witness :
    (buildFuel wLat wLng (1/10) wBounds 5 wPts = some wBuildT)
    ∧ centroidOkAll wLat wLng (recompute wLat wLng wBuildT) = true :=
  ⟨by with_unfolding_all rfl,
    tree_centroid_exact wLat wLng (1/10) _
      (Reach.construct wBounds 5 wPts wBuildT (by with_unfolding_all rfl))⟩

end CentroidThms

section LeafAdd

/-- C6: when add reaches a non-empty leaf, the new point is appended to the
leaf's co-located cluster — to both points and activePoints — if and only
if both per-axis absolute coordinate differences between the new point and
the leaf's first-inserted (reference) point are strictly less than epsilon;
otherwise the leaf is converted to an internal node, re-inserting its
stored points into children first, and the new point is then inserted into
the appropriate child.  The reference coordinates of a well-formed
non-empty leaf are exactly those of its first stored point. -/
theorem leaf_add_merge_iff_eps {α : Type} (la lo : α → ℚ) (eps : ℚ) (f : ℕ)
    (n : QNode α) (pt p0 : α) (rest : List α)
    (hl : n.leafF = true) (hp : n.points = p0 :: rest)
    (hwf : wfN la lo eps n = true) :
    n.refLatD = la p0 ∧ n.refLngD = lo p0 ∧
    addFuel la lo eps (f + 1) n pt =
      (if |la p0 - la pt| < eps ∧ |lo p0 - lo pt| < eps then
        some (n.setData { n.data with
          points := n.points ++ [pt], activePoints := n.activePoints ++ [pt] })
      else
        (convertF la lo eps f n).bind
          (fun m => addToChildF la lo eps f m pt (la pt) (lo pt))) := by
  cases n with
  | mk d c0 c1 c2 c3 =>
      have hdl : d.leaf = true := by simpa using hl
      have hdp : d.points = p0 :: rest := by simpa using hp
      rw [wfN, hdl, hdp] at hwf
      simp at hwf
      have href1 : d.refLat = some (la p0) := by tauto
      have href2 : d.refLng = some (lo p0) := by tauto
      refine ⟨by simp [href1], by simp [href2], ?_⟩
      rw [addFuel_succ]
      simp [href1, href2, hdl, hdp]

/-- C6 witness: a concrete one-point leaf receiving a far-away point. -/
theorem leaf_add_merge_iff_eps_witness :
    (wLeafP.leafF = true) ∧ (wLeafP.points = (⟨1, 1⟩ : LatLng) :: [])
    ∧ (wfN wLat wLng (1/10) wLeafP = true)
    ∧ (wLeafP.refLatD = wLat ⟨1, 1⟩ ∧ wLeafP.refLngD = wLng ⟨1, 1⟩ ∧
       addFuel wLat wLng (1/10) (1 + 1) wLeafP ⟨3, 3⟩ =
         (if |wLat ⟨1, 1⟩ - wLat ⟨3, 3⟩| < 1/10 ∧ |wLng ⟨1, 1⟩ - wLng ⟨3, 3⟩| < 1/10 then
           some (wLeafP.setData { wLeafP.data with
             points := wLeafP.points ++ [⟨3, 3⟩],
             activePoints := wLeafP.activePoints ++ [⟨3, 3⟩] })
         else
           (convertF wLat wLng (1/10) 1 wLeafP).bind
             (fun m => addToChildF wLat wLng (1/10) 1 m ⟨3, 3⟩
               (wLat ⟨3, 3⟩) (wLng ⟨3, 3⟩)))) :=
  ⟨by decide, by decide, by with_unfolding_all rfl,
    leaf_add_merge_iff_eps wLat wLng (1/10) 1 wLeafP ⟨3, 3⟩ ⟨1, 1⟩ []
      (by decide) (by decide) (by with_unfolding_all rfl)⟩

end LeafAdd

section GenErr

/-- newLeaf evaluated: the constructor stores the point, its coordinates as
the reference, and the bounds, and computeGravityCenter sets the center to
the point, the mass to one and the active flag. -/
theorem newLeaf_shape {α : Type} (la lo : α → ℚ) (b : Bounds) (pt : α) :
    newLeaf la lo b pt = QNode.mk
      ⟨b, true, [pt], [pt], some (la pt), some (lo pt), ⟨la pt, lo pt⟩, 1, true⟩
      none none none none := by
  show computeShallow la lo _ = _
  simp [computeShallow]

/-- In the divergence scenario, a leaf clustered at the out-of-bounds
reference point (2,0) whose box lies inside the unit square rejects the
point (4,0) at every recursion-depth budget: the conversion re-creates the
same shape of leaf in the shrinking top-left quadrant forever. -/
theorem addStuck (f : ℕ) : ∀ (d : NodeData LatLng),
    d.leaf = true → d.points = [⟨2, 0⟩] → d.refLat = some 2 → d.refLng = some 0 →
    unitishB d.bounds →
    addFuel wLat wLng (1/10) f (QNode.mk d none none none none) ⟨4, 0⟩ = none := by
  induction f with
  | zero => intro d _ _ _ _ _; rfl
  | succ g ih =>
      intro d hl hp hr1 hr2 hq
      obtain ⟨q1, q2, q3, q4, q5, q6⟩ := hq
      have hmidlat1 : d.bounds.midLat ≤ 1 := by
        rw [Bounds.midLat]; linarith
      have hmidlat0 : 0 ≤ d.bounds.midLat := by
        rw [Bounds.midLat]; linarith
      have hmidlng0 : 0 ≤ d.bounds.midLng := by
        rw [Bounds.midLng]; linarith
      have hmidlng1 : d.bounds.midLng ≤ 1 := by
        rw [Bounds.midLng]; linarith
      have hrt2 : routeIndex d.bounds 2 0 = 2 := by
        rw [routeIndex, if_pos (by linarith), if_neg (by linarith)]
      have hrt4 : routeIndex d.bounds 4 0 = 2 := by
        rw [routeIndex, if_pos (by linarith), if_neg (by linarith)]
      have hrb : routeBounds d.bounds 2 0 =
          ⟨d.bounds.midLat, d.bounds.west, d.bounds.north, d.bounds.midLng⟩ := by
        rw [routeBounds]
        simp only [if_pos (show (2:ℚ) > d.bounds.midLat by linarith),
          if_neg (show ¬((0:ℚ) > d.bounds.midLng) by linarith)]
      have hq2 : unitishB (routeBounds d.bounds 2 0) := by
        rw [hrb]
        refine ⟨hmidlat0, ?_, q3, q4, ?_, hmidlng1⟩
        · rw [Bounds.midLat]; linarith
        · rw [Bounds.midLng]; linarith
      have hrec : addFuel wLat wLng (1/10) g
          (newLeaf wLat wLng (routeBounds d.bounds 2 0) ⟨2, 0⟩) ⟨4, 0⟩ = none := by
        rw [newLeaf_shape]
        exact ih _ rfl rfl rfl rfl hq2
      have hconv : convertF wLat wLng (1/10) g (QNode.mk d none none none none) =
          some (QNode.mk
            ⟨d.bounds, false, [], [], none, none, d.center, d.mass, d.active⟩
            none none (some (newLeaf wLat wLng (routeBounds d.bounds 2 0) ⟨2, 0⟩)) none) := by
        rw [convertF]
        simp [hp, hr1, hr2, hrt2, addToChildF]
      rw [addFuel_succ]
      rw [if_neg (by simp [hl]), if_neg (by simp [hp]),
        if_neg (by norm_num [hr1, hr2, wLat, wLng])]
      rw [hconv]
      simp only [Option.some_bind]
      rw [addToChildF]
      have hw4 : wLat (⟨4, 0⟩ : LatLng) = 4 := rfl
      have hw0 : wLng (⟨4, 0⟩ : LatLng) = 0 := rfl
      simp only [QNode.bounds_mk, hw4, hw0, hrt4, QNode.child_mk_two]
      rw [hrec]
      rfl

/-- C9: tree construction through the factory raises the configuration
error if and only if the input point list is empty and no explicit bounds
were configured, and with explicit bounds the empty point list constructs
an empty tree.  The stronger original claim — that with explicit bounds
construction succeeds for EVERY point list — is false: inserting a point
outside the configured bounds can recurse forever. -/
theorem genTree_error_iff {α : Type} (la lo : α → ℚ) (eps : ℚ)
    (boundsOpt : Option Bounds) (f : ℕ) (pts : List α) :
    (genTree la lo eps boundsOpt f pts = .error () ↔ boundsOpt = none ∧ pts = [])
    ∧ (∀ b : Bounds, genTree la lo eps (some b) f [] =
        .ok (some (recompute la lo (emptyRoot la lo b.squarify)))) := by
  constructor
  · cases boundsOpt with
    | some b => simp [genTree]
    | none =>
        cases pts with
        | nil => simp [genTree, calculateBoundsE]
        | cons p ps => simp [genTree, calculateBoundsE]
  · intro b
    simp [genTree, buildFuel]

theorem genTree_diverges_all (f : ℕ) :
    genTree wLat wLng (1/10) (some ⟨0, 0, 1, 1⟩) f
      [(⟨2, 0⟩ : LatLng), ⟨4, 0⟩] = .ok none := by
  cases f with
  | zero => with_unfolding_all rfl
  | succ g =>
      have h1 : addFuel wLat wLng (1/10) (g + 1)
          (emptyRoot wLat wLng (⟨0, 0, 1, 1⟩ : Bounds).squarify) ⟨2, 0⟩ =
          some (QNode.mk
            ⟨⟨0, 0, 1, 1⟩, true, [⟨2, 0⟩], [⟨2, 0⟩], some 2, some 0, ⟨0, 0⟩, 0, false⟩
            none none none none) := by
        with_unfolding_all rfl
      have h2 : addFuel wLat wLng (1/10) (g + 1)
          (QNode.mk
            ⟨⟨0, 0, 1, 1⟩, true, [⟨2, 0⟩], [⟨2, 0⟩], some 2, some 0, ⟨0, 0⟩, 0, false⟩
            none none none none) ⟨4, 0⟩ = none :=
        addStuck (g + 1) _ rfl rfl rfl rfl (by norm_num [unitishB])
      simp only [genTree, buildFuel, List.foldlM_cons, List.foldlM_nil,
        Option.bind_eq_bind, Option.some_bind, h1, h2,
        Option.none_bind, Option.map_none']

/-- C9 counterexample: with the unit square configured as explicit bounds,
inserting the out-of-bounds points (2,0) then (4,0) exhausts every
recursion-depth budget — as a function of the budget, construction is
constantly the out-of-fuel result — so the unbounded source recursion of
add, convertToInternal and addToChild never terminates: construction does
not succeed for every point list when explicit bounds are configured. -/
theorem genTree_explicit_bounds_diverges :
    (fun f : ℕ => genTree wLat wLng (1/10) (some ⟨0, 0, 1, 1⟩) f
      [(⟨2, 0⟩ : LatLng), ⟨4, 0⟩])
    = fun _ : ℕ => Except.ok none :=
  funext genTree_diverges_all

end GenErr

section Termination

variable {α : Type} (la lo : α → ℚ)

/-- The bounds computed for a routed point are the quadrant of its slot. -/
theorem routeBounds_quad (b : Bounds) (t g : ℚ) :
    routeBounds b t g = quadBounds b (routeIndex b t g) := by
  by_cases h1 : t > b.midLat <;> by_cases h2 : g > b.midLng <;>
    simp [routeIndex, routeBounds, quadBounds, h1, h2]

theorem routeIndex_lt_four (b : Bounds) (t g : ℚ) : routeIndex b t g < 4 := by
  by_cases h1 : t > b.midLat <;> by_cases h2 : g > b.midLng <;>
    simp [routeIndex, h1, h2]

/-- A point inside a box is inside the quadrant it routes to. -/
theorem routeBounds_inB (b : Bounds) (lat lng : ℚ) (h : b.inB lat lng = true) :
    (routeBounds b lat lng).inB lat lng = true := by
  simp only [Bounds.inB, decide_eq_true_eq] at h ⊢
  obtain ⟨h1, h2, h3, h4⟩ := h
  rw [routeBounds]
  simp only [Bounds.midLat, Bounds.midLng]
  split_ifs with ha hb hb <;>
    exact ⟨by linarith, by linarith, by linarith, by linarith⟩

/-- Points with the same route index are routed into the same bounds. -/
theorem routeBounds_congr (b : Bounds) (x y x2 y2 : ℚ)
    (h : routeIndex b x y = routeIndex b x2 y2) :
    routeBounds b x y = routeBounds b x2 y2 := by
  by_cases ha : x > b.midLat <;> by_cases hb : y > b.midLng <;>
    by_cases ha2 : x2 > b.midLat <;> by_cases hb2 : y2 > b.midLng <;>
    rw [routeIndex, routeIndex] at h <;>
    first
      | (exfalso; revert h; simp [ha, hb, ha2, hb2]; done)
      | simp [routeBounds, ha, hb, ha2, hb2]

theorem half_max (a b : ℚ) : max a b / 2 = max (a / 2) (b / 2) := by
  rcases le_total a b with h | h
  · rw [max_eq_right h, max_eq_right (by linarith)]
  · rw [max_eq_left h, max_eq_left (by linarith)]

/-- Each quadrant step exactly halves the larger per-axis extent. -/
theorem maxExtent_routeBounds (b : Bounds) (x y : ℚ) :
    Bounds.maxExtent (routeBounds b x y) = Bounds.maxExtent b / 2 := by
  rw [routeBounds, Bounds.maxExtent, Bounds.maxExtent, half_max]
  split_ifs with h1 h2 h2 <;> dsimp only <;> congr 1 <;>
    simp only [Bounds.midLat, Bounds.midLng] <;> ring

/-- Same halving fact for each of the four named quadrants. -/
theorem maxExtent_quadBounds (b : Bounds) (i : ℕ) :
    Bounds.maxExtent (quadBounds b i) = Bounds.maxExtent b / 2 := by
  rcases i with _ | _ | _ | i <;>
    simp only [quadBounds] <;>
    rw [Bounds.maxExtent, Bounds.maxExtent, half_max] <;>
    dsimp only <;> congr 1 <;>
    simp only [Bounds.midLat, Bounds.midLng] <;> ring

theorem child_mk_none (d : NodeData α) (i : ℕ) :
    (QNode.mk d none none none none).child i = none := by
  rcases i with _ | _ | _ | _ | i <;> rfl

theorem data_setChild (n : QNode α) (i : ℕ) (c : Option (QNode α)) :
    (n.setChild i c).data = n.data := by
  cases n with
  | mk d c0 c1 c2 c3 => rcases i with _ | _ | _ | _ | i <;> rfl

theorem bounds_setChild (n : QNode α) (i : ℕ) (c : Option (QNode α)) :
    (n.setChild i c).bounds = n.bounds := by
  cases n with
  | mk d c0 c1 c2 c3 => rcases i with _ | _ | _ | _ | i <;> rfl

theorem child_setChild_self (n : QNode α) (i : ℕ) (hi : i < 4) (c : Option (QNode α)) :
    (n.setChild i c).child i = c := by
  cases n with
  | mk d c0 c1 c2 c3 => rcases i with _ | _ | _ | _ | i <;> first | rfl | omega

theorem child_setChild_ne (n : QNode α) (i j : ℕ) (hne : j ≠ i) (c : Option (QNode α)) :
    (n.setChild i c).child j = n.child j := by
  cases n with
  | mk d c0 c1 c2 c3 =>
      rcases i with _ | _ | _ | _ | i <;> rcases j with _ | _ | _ | _ | j <;>
        first | rfl | exact absurd rfl hne

theorem setChild_setChild (n : QNode α) (i : ℕ) (c c2 : Option (QNode α)) :
    (n.setChild i c).setChild i c2 = n.setChild i c2 := by
  cases n with
  | mk d c0 c1 c2x c3 => rcases i with _ | _ | _ | _ | i <;> rfl

/-- A present child of a well-formed node covers exactly its quadrant and is
itself well formed. -/
theorem wfN_child (eps : ℚ) {n c : QNode α} {i : ℕ}
    (hw : wfN la lo eps n = true) (hch : n.child i = some c) :
    c.bounds = quadBounds n.bounds i ∧ wfN la lo eps c = true := by
  cases n with
  | mk d c0 c1 c2 c3 =>
      rw [wfN] at hw
      simp only [Bool.and_eq_true] at hw
      simp only [QNode.bounds_mk]
      match i, hch with
      | 0, hch =>
          have h := hw.1.1.1.2
          simp only [QNode.child_mk_zero] at hch
          rw [hch, owfN] at h
          simp only [Bool.and_eq_true, decide_eq_true_eq] at h
          exact ⟨h.1, h.2⟩
      | 1, hch =>
          have h := hw.1.1.2
          simp only [QNode.child_mk_one] at hch
          rw [hch, owfN] at h
          simp only [Bool.and_eq_true, decide_eq_true_eq] at h
          exact ⟨h.1, h.2⟩
      | 2, hch =>
          have h := hw.1.2
          simp only [QNode.child_mk_two] at hch
          rw [hch, owfN] at h
          simp only [Bool.and_eq_true, decide_eq_true_eq] at h
          exact ⟨h.1, h.2⟩
      | 3, hch =>
          have h := hw.2
          simp only [QNode.child_mk_three] at hch
          rw [hch, owfN] at h
          simp only [Bool.and_eq_true, decide_eq_true_eq] at h
          exact ⟨h.1, h.2⟩

/-- Success of the fuelled insertion is monotone in the fuel: the fuel only
bounds the recursion depth, it never changes the result once sufficient. -/
theorem addFuel_mono (eps : ℚ) : ∀ (f : ℕ),
    (∀ (g : ℕ) (n : QNode α) (pt : α) (r : QNode α), f ≤ g →
        addFuel la lo eps f n pt = some r → addFuel la lo eps g n pt = some r)
    ∧ (∀ (g : ℕ) (m : QNode α) (q : α) (x y : ℚ) (r : QNode α), f ≤ g →
        addToChildF la lo eps f m q x y = some r →
        addToChildF la lo eps g m q x y = some r) := by
  intro f
  induction f with
  | zero =>
      constructor
      · intro g n pt r _ h
        exact absurd h (by simp [addFuel])
      · intro g m q x y r hle h
        rw [addToChildF] at h ⊢
        cases hch : m.child (routeIndex m.bounds x y) with
        | none => rw [hch] at h; exact h
        | some c =>
            rw [hch] at h
            exact absurd h (by simp [addFuel])
  | succ f ih =>
      have hP : ∀ (g : ℕ) (n : QNode α) (pt : α) (r : QNode α), f + 1 ≤ g →
          addFuel la lo eps (f + 1) n pt = some r →
          addFuel la lo eps g n pt = some r := by
        intro g n pt r hle h
        obtain ⟨g2, rfl⟩ : ∃ g2, g = g2 + 1 := ⟨g - 1, by omega⟩
        have hfg : f ≤ g2 := by omega
        rw [addFuel_succ] at h
        rw [addFuel_succ]
        split_ifs at h ⊢ with h1 h2 h3
        · exact ih.2 g2 n pt (la pt) (lo pt) r hfg h
        · exact h
        · exact h
        · obtain ⟨mc, hmc, hrest⟩ := Option.bind_eq_some.mp h
          have hfold : ∀ (ps : List α) (m0 mr : QNode α),
              ps.foldlM (fun m q => addToChildF la lo eps f m q n.refLatD n.refLngD) m0
                = some mr →
              ps.foldlM (fun m q => addToChildF la lo eps g2 m q n.refLatD n.refLngD) m0
                = some mr := by
            intro ps
            induction ps with
            | nil => intro m0 mr hh; simpa using hh
            | cons q rest ihp =>
                intro m0 mr hh
                rw [List.foldlM_cons] at hh ⊢
                cases hstep : addToChildF la lo eps f m0 q n.refLatD n.refLngD with
                | none =>
                    rw [hstep] at hh
                    exact absurd hh (by simp)
                | some m1 =>
                    rw [hstep] at hh
                    simp only [Option.bind_eq_bind, Option.some_bind] at hh
                    rw [ih.2 g2 m0 q n.refLatD n.refLngD m1 hfg hstep]
                    simp only [Option.bind_eq_bind, Option.some_bind]
                    exact ihp m1 mr hh
          rw [convertF] at hmc
          obtain ⟨mf, hmf, hclear⟩ := Option.map_eq_some'.mp hmc
          have hmc2 : convertF la lo eps g2 n = some mc := by
            rw [convertF, hfold _ _ _ hmf, Option.map_some', hclear]
          rw [hmc2, Option.some_bind]
          exact ih.2 g2 mc pt (la pt) (lo pt) r hfg hrest
      refine ⟨hP, ?_⟩
      intro g m q x y r hle h
      rw [addToChildF] at h ⊢
      cases hch : m.child (routeIndex m.bounds x y) with
      | none => rw [hch] at h; exact h
      | some c =>
          rw [hch] at h
          have h2 : Option.map (fun r2 => m.setChild (routeIndex m.bounds x y) (some r2))
              (addFuel la lo eps (f + 1) c q) = some r := h
          obtain ⟨r2, hr2, hset⟩ := Option.map_eq_some'.mp h2
          show Option.map (fun r2 => m.setChild (routeIndex m.bounds x y) (some r2))
              (addFuel la lo eps g c q) = some r
          rw [hP g c q r2 hle hr2, Option.map_some', hset]

theorem setData_setChild (d d2 : NodeData α) (i : ℕ) (c : Option (QNode α)) :
    ((QNode.mk d none none none none).setChild i c).setData d2
      = (QNode.mk d2 none none none none).setChild i c := by
  rcases i with _ | _ | _ | _ | i <;> rfl

/-- A cluster leaf absorbs, by merging, every point within epsilon of its
reference on both axes: the re-insertion loop of convertToInternal only
ever appends to the one new child. -/
theorem convLoop (eps : ℚ) (f : ℕ) (b rb : Bounds) (d1 : NodeData α)
    (hb : d1.bounds = b) (p0 : α) (i0 : ℕ)
    (hi0 : routeIndex b (la p0) (lo p0) = i0) (hi4 : i0 < 4) :
    ∀ (qs ps : List α),
      (∀ q ∈ qs, |la q - la p0| < eps ∧ |lo q - lo p0| < eps) →
      ps ≠ [] →
      qs.foldlM (fun m q => addToChildF la lo eps (f + 1) m q (la p0) (lo p0))
          ((QNode.mk d1 none none none none).setChild i0
            (some (clusterLeaf la lo rb p0 ps)))
        = some ((QNode.mk d1 none none none none).setChild i0
            (some (clusterLeaf la lo rb p0 (ps ++ qs)))) := by
  intro qs
  induction qs with
  | nil =>
      intro ps _ _
      simp
  | cons q qs ihq =>
      intro ps hclose hne
      rw [List.foldlM_cons]
      have hq := hclose q (by simp)
      have h1 : |la p0 - la q| < eps := by rw [abs_sub_comm]; exact hq.1
      have h2 : |lo p0 - lo q| < eps := by rw [abs_sub_comm]; exact hq.2
      have hadd : addFuel la lo eps (f + 1) (clusterLeaf la lo rb p0 ps) q
          = some (clusterLeaf la lo rb p0 (ps ++ [q])) := by
        rw [addFuel_succ]
        rw [if_neg (by simp [clusterLeaf]),
          if_neg (by simp [clusterLeaf, hne]),
          if_pos (by
            simp only [clusterLeaf, QNode.refLatD_mk, QNode.refLngD_mk, Option.getD_some]
            exact ⟨h1, h2⟩)]
        rfl
      have hbnd : (((QNode.mk d1 none none none none).setChild i0
          (some (clusterLeaf la lo rb p0 ps)))).bounds = b := by
        rw [bounds_setChild, QNode.bounds_mk, hb]
      have hstep : addToChildF la lo eps (f + 1)
          ((QNode.mk d1 none none none none).setChild i0 (some (clusterLeaf la lo rb p0 ps)))
          q (la p0) (lo p0)
          = some ((QNode.mk d1 none none none none).setChild i0
              (some (clusterLeaf la lo rb p0 (ps ++ [q])))) := by
        simp only [addToChildF, hbnd, hi0,
          child_setChild_self ((QNode.mk d1 none none none none)) i0 hi4]
        rw [hadd, Option.map_some', setChild_setChild]
      rw [hstep]
      simp only [Option.bind_eq_bind, Option.some_bind]
      rw [ihq (ps ++ [q]) (fun q2 hq2 => hclose q2 (by simp [hq2])) (by simp)]
      simp

/-- convertToInternal on a well-formed leaf: every stored point is routed by
the constant reference coordinates, so the whole point list lands in one
single new cluster child. -/
theorem convert_char (eps : ℚ) (f : ℕ) (d : NodeData α) (p0 : α) (rest : List α)
    (hp : d.points = p0 :: rest)
    (hr1 : d.refLat = some (la p0)) (hr2 : d.refLng = some (lo p0))
    (hclose : ∀ q ∈ d.points, |la q - la p0| < eps ∧ |lo q - lo p0| < eps) :
    convertF la lo eps (f + 1) (QNode.mk d none none none none) =
      some ((QNode.mk ⟨d.bounds, false, [], [], none, none, d.center, d.mass, d.active⟩
          none none none none).setChild (routeIndex d.bounds (la p0) (lo p0))
        (some (clusterLeaf la lo (routeBounds d.bounds (la p0) (lo p0)) p0 (p0 :: rest)))) := by
  have hi4 : routeIndex d.bounds (la p0) (lo p0) < 4 := routeIndex_lt_four _ _ _
  rw [convertF]
  simp only [QNode.points_mk, QNode.refLatD_mk, QNode.refLngD_mk, QNode.data_mk,
    QNode.setData_mk, hp, hr1, hr2, Option.getD_some]
  have hstep1 : addToChildF la lo eps (f + 1)
      (QNode.mk ⟨d.bounds, false, p0 :: rest, d.activePoints, some (la p0), some (lo p0),
        d.center, d.mass, d.active⟩ none none none none) p0 (la p0) (lo p0)
      = some ((QNode.mk ⟨d.bounds, false, p0 :: rest, d.activePoints, some (la p0),
          some (lo p0), d.center, d.mass, d.active⟩ none none none none).setChild
          (routeIndex d.bounds (la p0) (lo p0))
          (some (clusterLeaf la lo (routeBounds d.bounds (la p0) (lo p0)) p0 [p0]))) := by
    simp only [addToChildF, QNode.bounds_mk, child_mk_none]
    rw [newLeaf_shape]
    rfl
  simp only [List.foldlM_cons]
  rw [hstep1]
  simp only [Option.bind_eq_bind, Option.some_bind]
  rw [convLoop la lo eps f d.bounds (routeBounds d.bounds (la p0) (lo p0))
    ⟨d.bounds, false, p0 :: rest, d.activePoints, some (la p0), some (lo p0),
      d.center, d.mass, d.active⟩ rfl p0 (routeIndex d.bounds (la p0) (lo p0)) rfl hi4
    rest [p0] (fun q2 hq2 => hclose q2 (by simp [hp, hq2])) (by simp)]
  simp only [Option.map_some', data_setChild, QNode.data_mk]
  rw [setData_setChild]
  rfl

/-- The cluster child built from a well-formed leaf is itself well formed. -/
theorem wf_clusterLeaf (eps : ℚ) (b : Bounds) (p0 : α) (rest : List α)
    (hin : b.inB (la p0) (lo p0) = true)
    (hclose : ∀ q ∈ p0 :: rest, |la q - la p0| < eps ∧ |lo q - lo p0| < eps) :
    wfN la lo eps (clusterLeaf la lo b p0 (p0 :: rest)) = true := by
  rw [clusterLeaf, wfN]
  simp only [owfN, Option.isNone_none, Bool.and_true, Bool.true_and, if_true]
  simp [List.all_eq_true, hin]
  refine ⟨?_, fun q hq => hclose q (by simp [hq])⟩
  have h0 := (hclose p0 (by simp)).1
  simpa using h0

/-- One level of the termination argument: if insertion terminates in every
well-formed box of at most half the extent budget, it terminates within the
full budget; boxes with extent below epsilon always merge. -/
theorem addTerm_node (eps : ℚ) (heps : 0 < eps) (k : ℕ)
    (hprev : 1 ≤ k → ∀ (m : QNode α), wfN la lo eps m = true →
        2 * Bounds.maxExtent m.bounds < eps * 2 ^ k →
        ∀ q : α, m.bounds.inB (la q) (lo q) = true →
        ∃ f, (addFuel la lo eps f m q).isSome = true) :
    ∀ (n : QNode α), wfN la lo eps n = true →
    Bounds.maxExtent n.bounds < eps * 2 ^ k →
    ∀ pt : α, n.bounds.inB (la pt) (lo pt) = true →
    ∃ f, (addFuel la lo eps f n pt).isSome = true := by
  intro n
  induction n using QNode.strongInduction with
  | _ n ihn =>
      intro hwf hext pt hin
      cases n with
      | mk d c0 c1 c2 c3 =>
          have hexd : Bounds.maxExtent d.bounds < eps * 2 ^ k := by simpa using hext
          have hind : d.bounds.inB (la pt) (lo pt) = true := by simpa using hin
          by_cases hdl : d.leaf = true
          · cases hps : d.points with
            | nil =>
                refine ⟨1, ?_⟩
                rw [show (1 : ℕ) = 0 + 1 from rfl, addFuel_succ,
                  if_neg (by simp [hdl]), if_pos (by simp [hps])]
                rfl
            | cons p0 rest =>
                rw [wfN] at hwf
                rw [hdl, hps, if_pos rfl] at hwf
                simp only [Bool.and_eq_true, decide_eq_true_eq,
                  Option.isNone_iff_eq_none, List.all_eq_true] at hwf
                obtain ⟨⟨⟨⟨⟨⟨⟨⟨hn0, hn1⟩, hn2⟩, hn3⟩, ⟨⟨hrl, hrg⟩, hib⟩, hall⟩, ho0⟩,
                  ho1⟩, ho2⟩, ho3⟩ := hwf
                subst hn0
                subst hn1
                subst hn2
                subst hn3
                have hcls : ∀ q ∈ d.points, |la q - la p0| < eps ∧ |lo q - lo p0| < eps := by
                  rw [hps]
                  intro q hq
                  have := hall q hq
                  exact ⟨this.1, this.2⟩
                by_cases hmg : |la p0 - la pt| < eps ∧ |lo p0 - lo pt| < eps
                · refine ⟨1, ?_⟩
                  rw [show (1 : ℕ) = 0 + 1 from rfl, addFuel_succ,
                    if_neg (by simp [hdl]), if_neg (by simp [hps]),
                    if_pos (by
                      simp only [QNode.refLatD_mk, QNode.refLngD_mk, hrl, hrg,
                        Option.getD_some]
                      exact hmg)]
                  rfl
                · obtain ⟨hs1, hs2, hs3, hs4⟩ :
                      d.bounds.south ≤ la p0 ∧ la p0 ≤ d.bounds.north ∧
                      d.bounds.west ≤ lo p0 ∧ lo p0 ≤ d.bounds.east := by
                    simpa [Bounds.inB] using hib
                  obtain ⟨ht1, ht2, ht3, ht4⟩ :
                      d.bounds.south ≤ la pt ∧ la pt ≤ d.bounds.north ∧
                      d.bounds.west ≤ lo pt ∧ lo pt ≤ d.bounds.east := by
                    simpa [Bounds.inB] using hind
                  have hex : eps ≤ Bounds.maxExtent d.bounds := by
                    rw [Bounds.maxExtent]
                    rcases not_and_or.mp hmg with hm | hm
                    · have h5 : eps ≤ |la p0 - la pt| := not_lt.mp hm
                      have h6 : |la p0 - la pt| ≤ d.bounds.north - d.bounds.south :=
                        abs_le.mpr ⟨by linarith, by linarith⟩
                      exact le_trans h5 (le_trans h6 (le_max_left _ _))
                    · have h5 : eps ≤ |lo p0 - lo pt| := not_lt.mp hm
                      have h6 : |lo p0 - lo pt| ≤ d.bounds.east - d.bounds.west :=
                        abs_le.mpr ⟨by linarith, by linarith⟩
                      exact le_trans h5 (le_trans h6 (le_max_right _ _))
                  have hk1 : 1 ≤ k := by
                    rcases Nat.eq_zero_or_pos k with hk | hk
                    · subst hk
                      rw [pow_zero, mul_one] at hexd
                      linarith
                    · omega
                  have hwfc : wfN la lo eps
                      (clusterLeaf la lo (routeBounds d.bounds (la p0) (lo p0)) p0
                        (p0 :: rest)) = true := by
                    refine wf_clusterLeaf la lo eps _ p0 rest
                      (routeBounds_inB _ _ _ hib) ?_
                    intro q hq
                    exact hcls q (by rw [hps]; exact hq)
                  have hextc : 2 * Bounds.maxExtent
                      (routeBounds d.bounds (la p0) (lo p0)) < eps * 2 ^ k := by
                    rw [maxExtent_routeBounds]
                    linarith
                  have hi4 : routeIndex d.bounds (la p0) (lo p0) < 4 :=
                    routeIndex_lt_four _ _ _
                  by_cases hsame : routeIndex d.bounds (la pt) (lo pt)
                      = routeIndex d.bounds (la p0) (lo p0)
                  · have hinc : (routeBounds d.bounds (la p0) (lo p0)).inB
                        (la pt) (lo pt) = true := by
                      have h1 : routeBounds d.bounds (la pt) (lo pt)
                          = routeBounds d.bounds (la p0) (lo p0) :=
                        routeBounds_congr _ _ _ _ _ hsame
                      rw [← h1]
                      exact routeBounds_inB _ _ _ hind
                    obtain ⟨f0, hf0⟩ := hprev hk1 _ hwfc
                      (by simpa [clusterLeaf] using hextc) pt
                      (by simpa [clusterLeaf] using hinc)
                    obtain ⟨rr, hrr⟩ := Option.isSome_iff_exists.mp hf0
                    have haddc : addFuel la lo eps (f0 + 1)
                        (clusterLeaf la lo (routeBounds d.bounds (la p0) (lo p0)) p0
                          (p0 :: rest)) pt = some rr :=
                      (addFuel_mono la lo eps f0).1 (f0 + 1) _ pt rr (by omega) hrr
                    refine ⟨(f0 + 1) + 1, ?_⟩
                    rw [addFuel_succ, if_neg (by simp [hdl]), if_neg (by simp [hps]),
                      if_neg (by
                        simp only [QNode.refLatD_mk, QNode.refLngD_mk, hrl, hrg,
                          Option.getD_some]
                        exact hmg)]
                    rw [convert_char la lo eps f0 d p0 rest hps hrl hrg hcls,
                      Option.some_bind]
                    simp only [addToChildF, bounds_setChild, QNode.bounds_mk, hsame,
                      child_setChild_self _ (routeIndex d.bounds (la p0) (lo p0)) hi4]
                    rw [haddc]
                    rfl
                  · refine ⟨(0 + 1) + 1, ?_⟩
                    rw [addFuel_succ, if_neg (by simp [hdl]), if_neg (by simp [hps]),
                      if_neg (by
                        simp only [QNode.refLatD_mk, QNode.refLngD_mk, hrl, hrg,
                          Option.getD_some]
                        exact hmg)]
                    rw [convert_char la lo eps 0 d p0 rest hps hrl hrg hcls,
                      Option.some_bind]
                    simp only [addToChildF, bounds_setChild, QNode.bounds_mk,
                      child_setChild_ne _ (routeIndex d.bounds (la p0) (lo p0)) _ hsame,
                      child_mk_none]
                    rfl
          · have hdl2 : d.leaf = false := by
              rcases Bool.eq_false_or_eq_true d.leaf with h | h
              · exact absurd h hdl
              · exact h
            cases hch : (QNode.mk d c0 c1 c2 c3).child
                (routeIndex d.bounds (la pt) (lo pt)) with
            | none =>
                refine ⟨0 + 1, ?_⟩
                rw [addFuel_succ, if_pos (by simp [hdl2])]
                simp only [addToChildF, QNode.bounds_mk, hch]
                rfl
            | some c =>
                have hcb := wfN_child la lo eps hwf hch
                have hcb1 : c.bounds
                    = quadBounds d.bounds (routeIndex d.bounds (la pt) (lo pt)) := by
                  simpa using hcb.1
                have hsz : c.size < (QNode.mk d c0 c1 c2 c3).size :=
                  QNode.size_child_lt hch
                have hinc : c.bounds.inB (la pt) (lo pt) = true := by
                  rw [hcb1, ← routeBounds_quad]
                  exact routeBounds_inB _ _ _ hind
                have hexc : Bounds.maxExtent c.bounds < eps * 2 ^ k := by
                  rw [hcb1, maxExtent_quadBounds]
                  rcases le_or_lt 0 (Bounds.maxExtent d.bounds) with h0 | h0
                  · linarith
                  · have hp2 : 0 < eps * 2 ^ k := by positivity
                    linarith
                obtain ⟨f1, hf1⟩ := ihn c hsz hcb.2 hexc pt hinc
                obtain ⟨rr, hrr⟩ := Option.isSome_iff_exists.mp hf1
                refine ⟨f1 + 1, ?_⟩
                rw [addFuel_succ, if_pos (by simp [hdl2])]
                simp only [addToChildF, QNode.bounds_mk, hch, hrr, Option.map_some']
                rfl

/-- The full termination induction over the extent budget. -/
theorem addTerm_all (eps : ℚ) (heps : 0 < eps) : ∀ (k : ℕ) (n : QNode α),
    wfN la lo eps n = true → Bounds.maxExtent n.bounds < eps * 2 ^ k →
    ∀ pt : α, n.bounds.inB (la pt) (lo pt) = true →
    ∃ f, (addFuel la lo eps f n pt).isSome = true := by
  intro k
  induction k with
  | zero => exact addTerm_node la lo eps heps 0 (fun h => absurd h (by omega))
  | succ k2 ihk =>
      refine addTerm_node la lo eps heps (k2 + 1) (fun h1k m hm hext q hq => ihk m hm ?_ q hq)
      have hpow : (2 : ℚ) ^ (k2 + 1) = 2 ^ k2 * 2 := pow_succ 2 k2
      rw [hpow, show eps * (2 ^ k2 * 2) = 2 * (eps * 2 ^ k2) from by ring] at hext
      linarith

/-- C10: for every positive epsilon and every point whose coordinates lie
within the bounds of a well-formed node, QuadTreeNode.add terminates: some
finite recursion-depth budget suffices for the fuelled model of the mutual
recursion add / convertToInternal / addToChild.  The proof follows the
claimed mechanism: child cell extents halve at each level, and once the
per-axis extent of a cell is below epsilon every in-cell point is within
epsilon of the cell cluster reference on both axes and is merged into the
leaf instead of splitting further. -/
theorem add_terminates_in_bounds {α : Type} (la lo : α → ℚ) (eps : ℚ)
    (n : QNode α) (pt : α) (heps : 0 < eps)
    (hwf : wfN la lo eps n = true)
    (hin : n.bounds.inB (la pt) (lo pt) = true) :
    ∃ f, (addFuel la lo eps f n pt).isSome = true := by
  obtain ⟨k, hk⟩ := pow_unbounded_of_one_lt (Bounds.maxExtent n.bounds / eps)
    (by norm_num : (1 : ℚ) < 2)
  have hk2 : Bounds.maxExtent n.bounds < eps * 2 ^ k := by
    have h2 := (div_lt_iff heps).mp hk
    linarith [h2, mul_comm ((2 : ℚ) ^ k) eps]
  exact addTerm_all la lo eps heps k n hwf hk2 pt hin

/-- C10 witness: insertion into a concrete well-formed one-point leaf of an
in-bounds point terminates. -/
theorem add_terminates_in_bounds_witness :
    ((0 : ℚ) < 1 / 10) ∧ (wfN wLat wLng (1 / 10) wLeafP = true)
    ∧ (wLeafP.bounds.inB (wLat ⟨1, 1⟩) (wLng ⟨1, 1⟩) = true)
    ∧ ∃ f, (addFuel wLat wLng (1 / 10) f wLeafP ⟨1, 1⟩).isSome = true :=
  ⟨by norm_num, by with_unfolding_all rfl, by decide,
    add_terminates_in_bounds wLat wLng (1 / 10) wLeafP ⟨1, 1⟩ (by norm_num)
      (by with_unfolding_all rfl) (by decide)⟩

end Termination

end QuadCluster
